import Mathlib

/-!
Verification development for the openclaw_podcast audio pipeline
(src/utils/text.py, src/outputs/tts_edge.py, src/outputs/audio.py,
run_daily.py), shallowly embedded over List Char / Nat / Rat.
-/

namespace Openclaw

/-- Model of the Python whitespace class used by str.strip and friends
(ASCII whitespace characters). -/
def isWs (c : Char) : Bool :=
  c == ' ' || c == '\t' || c == '\n' || c == '\r' || c == '\x0b' || c == '\x0c'

/-- Model of Python str.strip: remove leading and trailing whitespace. -/
def pystrip (l : List Char) : List Char :=
  ((l.dropWhile isWs).reverse.dropWhile isWs).reverse

/-- The non-whitespace content of a string, in order (whitespace
normalization: formatting characters are discarded). -/
def nonWs (l : List Char) : List Char :=
  l.filter (fun c => !(isWs c))

theorem nonWs_append (a b : List Char) : nonWs (a ++ b) = nonWs a ++ nonWs b := by
  simp [nonWs]

theorem nonWs_dropWhile (l : List Char) :
    nonWs (l.dropWhile isWs) = nonWs l := by
  induction l with
  | nil => rfl
  | cons c t ih =>
    by_cases h : isWs c = true
    · simpa [List.dropWhile, h, nonWs] using ih
    · simp [List.dropWhile, h]

theorem nonWs_reverse (l : List Char) : nonWs l.reverse = (nonWs l).reverse := by
  simp [nonWs, List.filter_reverse]

theorem nonWs_pystrip (l : List Char) : nonWs (pystrip l) = nonWs l := by
  simp [pystrip, nonWs_reverse, nonWs_dropWhile]

theorem nonWs_eq_nil_of_pystrip_eq_nil {l : List Char} (h : pystrip l = []) :
    nonWs l = [] := by
  have := nonWs_pystrip l
  rw [h] at this
  exact this.symm

theorem pystrip_length_le (l : List Char) : (pystrip l).length ≤ l.length := by
  simp only [pystrip, List.length_reverse]
  calc ((l.dropWhile isWs).reverse.dropWhile isWs).length
      ≤ (l.dropWhile isWs).reverse.length := (List.dropWhile_sublist _).length_le
    _ = (l.dropWhile isWs).length := List.length_reverse _
    _ ≤ l.length := (List.dropWhile_sublist _).length_le

/-! ## src/utils/text.py -/

/-- Split a list at every character satisfying p, dropping the separator
characters and keeping the (possibly empty) pieces between them.
Models Python str.splitlines when p recognizes line-break characters
(treating a CRLF pair as two boundaries, which only inserts an extra
empty line that chunk_text ignores). -/
def splitOnPred (p : Char → Bool) : List Char → List (List Char)
  | [] => [[]]
  | c :: rest =>
    match splitOnPred p rest with
    | [] => []
    | s :: ss => if p c then [] :: s :: ss else (c :: s) :: ss

/-- Line-break characters recognized by the splitlines model. -/
def isLineBreak (c : Char) : Bool :=
  c == '\n' || c == '\r' || c == '\x0b' || c == '\x0c'

/-- Model of Python str.splitlines (see splitOnPred). -/
def pysplitlines (l : List Char) : List (List Char) :=
  splitOnPred isLineBreak l

/-- Split a list at every character satisfying p, keeping the separator
characters as singleton tokens between the pieces. Models Python
re.split with a capturing single-character class. -/
def splitKeepDelims (p : Char → Bool) : List Char → List (List Char)
  | [] => [[]]
  | c :: rest =>
    match splitKeepDelims p rest with
    | [] => []
    | s :: ss => if p c then [] :: [c] :: s :: ss else (c :: s) :: ss

/-- The sentence-ending characters of the regex ([.!?。！？]) in text.py. -/
def isSentEnd (c : Char) : Bool :=
  c == '.' || c == '!' || c == '?' || c == '。' || c == '！' || c == '？'

/-- Worker for hardCut, structurally recursive on a fuel that starts at the
length of the list (each step consumes at least one character when m is
at least 1, so the fuel never runs out on the inputs _split_buf uses). -/
def hardCutGo (m : ℕ) : ℕ → List Char → List (List Char)
  | _, [] => []
  | 0, _ :: _ => []
  | fuel + 1, c :: rest => (c :: rest).take m :: hardCutGo m fuel ((c :: rest).drop m)

/-- Model of the hard-cut loop in _split_buf:
for i in range(0, len(p), max_chars): out.append(p[i:i+max_chars]).
For max_chars = 0 Python would raise; this model returns a junk value. -/
def hardCut (m : ℕ) (l : List Char) : List (List Char) :=
  hardCutGo m l.length l

/-- The token-accumulation loop of _split_buf in text.py:
tokens that fit are appended to cur, otherwise cur is flushed
(stripped, skipped when whitespace-only) and cur restarts at the token. -/
def splitBufLoop (m : ℕ) : List (List Char) → List (List Char) → List Char →
    List (List Char) × List Char
  | [], parts, cur => (parts, cur)
  | tok :: toks, parts, cur =>
    if cur.length + tok.length ≤ m then splitBufLoop m toks parts (cur ++ tok)
    else if pystrip cur ≠ [] then splitBufLoop m toks (parts ++ [pystrip cur]) tok
    else splitBufLoop m toks parts tok

/-- Model of _split_buf (text.py lines 34-62): split an over-long buffer at
sentence-ending punctuation, hard-cutting any piece still over max_chars. -/
def _split_buf (buf0 : List Char) (max_chars : ℕ) : List (List Char) :=
  let buf := pystrip buf0
  if buf = [] then []
  else if buf.length ≤ max_chars then [buf]
  else
    let toks := (splitKeepDelims isSentEnd buf).filter (fun t => t ≠ [])
    let pc := splitBufLoop max_chars toks [] []
    let parts := if pystrip pc.2 ≠ [] then pc.1 ++ [pystrip pc.2] else pc.1
    parts.flatMap (fun p => if p.length ≤ max_chars then [p] else hardCut max_chars p)

/-- The line loop of chunk_text in text.py: grow a buffer line by line,
flushing it through _split_buf whenever the next line would overflow. -/
def chunkLoop (m : ℕ) : List (List Char) → List (List Char) → List Char →
    List (List Char) × List Char
  | [], chunks, buf => (chunks, buf)
  | line :: ls, chunks, buf =>
    let add := pystrip line
    let candidate := if buf ≠ [] then pystrip (buf ++ '\n' :: add) else add
    if candidate.length ≤ m then chunkLoop m ls chunks candidate
    else chunkLoop m ls (chunks ++ _split_buf buf m) add

/-- Model of chunk_text (text.py lines 9-31). -/
def chunk_text (text0 : List Char) (max_chars : ℕ) : List (List Char) :=
  let text := pystrip text0
  if text = [] then []
  else
    let cb := chunkLoop max_chars (pysplitlines text) [] []
    let chunks := if pystrip cb.2 ≠ [] then cb.1 ++ _split_buf cb.2 max_chars else cb.1
    (chunks.map pystrip).filter (fun c => c ≠ [])

/-! ### Losslessness of the segmenter (claim C4) -/

theorem splitOnPred_ne_nil (p : Char → Bool) (l : List Char) :
    splitOnPred p l ≠ [] := by
  induction l with
  | nil => simp [splitOnPred]
  | cons c rest ih =>
    simp only [splitOnPred]
    match h : splitOnPred p rest with
    | [] => exact absurd h ih
    | s :: ss => by_cases hp : p c <;> simp [hp]

theorem flatten_splitOnPred (p : Char → Bool) (l : List Char) :
    (splitOnPred p l).flatten = l.filter (fun c => !(p c)) := by
  induction l with
  | nil => simp [splitOnPred]
  | cons c rest ih =>
    simp only [splitOnPred]
    match h : splitOnPred p rest with
    | [] => exact absurd h (splitOnPred_ne_nil p rest)
    | s :: ss =>
      rw [h] at ih
      by_cases hp : p c <;> simp [hp, List.filter_cons, ← ih]

theorem splitKeepDelims_ne_nil (p : Char → Bool) (l : List Char) :
    splitKeepDelims p l ≠ [] := by
  induction l with
  | nil => simp [splitKeepDelims]
  | cons c rest ih =>
    simp only [splitKeepDelims]
    match h : splitKeepDelims p rest with
    | [] => exact absurd h ih
    | s :: ss => by_cases hp : p c <;> simp [hp]

theorem flatten_splitKeepDelims (p : Char → Bool) (l : List Char) :
    (splitKeepDelims p l).flatten = l := by
  induction l with
  | nil => simp [splitKeepDelims]
  | cons c rest ih =>
    simp only [splitKeepDelims]
    match h : splitKeepDelims p rest with
    | [] => exact absurd h (splitKeepDelims_ne_nil p rest)
    | s :: ss =>
      rw [h] at ih
      by_cases hp : p c <;> simp [hp, ← ih]

theorem flatten_filter_ne_nil (L : List (List Char)) :
    (L.filter (fun t => t ≠ [])).flatten = L.flatten := by
  induction L with
  | nil => rfl
  | cons t ts ih =>
    by_cases h : t = []
    · rw [List.filter_cons, if_neg (by simp [h]), ih, List.flatten_cons, h, List.nil_append]
    · rw [List.filter_cons, if_pos (by simp [h]), List.flatten_cons, List.flatten_cons, ih]

theorem hardCutGo_flatten {m : ℕ} (hm : 1 ≤ m) :
    ∀ (fuel : ℕ) (l : List Char), l.length ≤ fuel → (hardCutGo m fuel l).flatten = l := by
  intro fuel
  induction fuel with
  | zero =>
    intro l hl
    match l with
    | [] => rfl
    | c :: rest => simp at hl
  | succ fuel ih =>
    intro l hl
    match l with
    | [] => rfl
    | c :: rest =>
      simp only [hardCutGo, List.flatten_cons]
      have hlen : ((c :: rest).drop m).length ≤ fuel := by
        simp only [List.length_drop, List.length_cons]
        simp only [List.length_cons] at hl
        omega
      rw [ih ((c :: rest).drop m) hlen, List.take_append_drop]

theorem hardCut_flatten {m : ℕ} (hm : 1 ≤ m) (l : List Char) :
    (hardCut m l).flatten = l :=
  hardCutGo_flatten hm l.length l le_rfl

theorem splitBufLoop_nonWs (m : ℕ) (toks : List (List Char)) :
    ∀ parts cur,
      nonWs ((splitBufLoop m toks parts cur).1.flatten ++ (splitBufLoop m toks parts cur).2) =
        nonWs (parts.flatten ++ (cur ++ toks.flatten)) := by
  induction toks with
  | nil => intro parts cur; simp [splitBufLoop]
  | cons tok toks ih =>
    intro parts cur
    simp only [splitBufLoop]
    by_cases h1 : cur.length + tok.length ≤ m
    · rw [if_pos h1, ih]
      simp [nonWs_append, List.append_assoc]
    · rw [if_neg h1]
      by_cases h2 : pystrip cur ≠ []
      · rw [if_pos h2, ih]
        simp [nonWs_append, nonWs_pystrip, List.append_assoc]
      · rw [if_neg h2, ih]
        have hcur : nonWs cur = [] := by
          push_neg at h2
          exact nonWs_eq_nil_of_pystrip_eq_nil h2
        simp [nonWs_append, hcur]

theorem flatMap_hardCut_flatten {m : ℕ} (hm : 1 ≤ m) (parts : List (List Char)) :
    (parts.flatMap (fun p => if p.length ≤ m then [p] else hardCut m p)).flatten =
      parts.flatten := by
  induction parts with
  | nil => rfl
  | cons p ps ihp =>
    by_cases hp : p.length ≤ m
    · simp only [List.flatMap_cons, if_pos hp, List.flatten_append, ihp,
        List.flatten_cons, List.flatten_nil, List.append_nil]
    · simp only [List.flatMap_cons, if_neg hp, List.flatten_append, ihp,
        hardCut_flatten hm, List.flatten_cons]

theorem split_buf_nonWs {m : ℕ} (hm : 1 ≤ m) (buf : List Char) :
    nonWs ((_split_buf buf m).flatten) = nonWs buf := by
  rw [_split_buf]
  by_cases h0 : pystrip buf = []
  · rw [if_pos h0]
    rw [nonWs_eq_nil_of_pystrip_eq_nil h0]
    rfl
  · rw [if_neg h0]
    by_cases h1 : (pystrip buf).length ≤ m
    · rw [if_pos h1]
      simp [nonWs_pystrip]
    · rw [if_neg h1]
      simp only []
      have htflat :
          (((splitKeepDelims isSentEnd (pystrip buf)).filter (fun t => t ≠ []))).flatten =
            pystrip buf := by
        rw [flatten_filter_ne_nil, flatten_splitKeepDelims]
      rw [flatMap_hardCut_flatten hm]
      have hloop := splitBufLoop_nonWs m
        ((splitKeepDelims isSentEnd (pystrip buf)).filter (fun t => t ≠ [])) [] []
      simp only [List.flatten_nil, List.nil_append] at hloop
      rw [htflat] at hloop
      by_cases h2 : pystrip (splitBufLoop m
          ((splitKeepDelims isSentEnd (pystrip buf)).filter (fun t => t ≠ [])) [] []).2 ≠ []
      · rw [if_pos h2, List.flatten_append, List.flatten_cons, List.flatten_nil,
          List.append_nil, nonWs_append, nonWs_pystrip, ← nonWs_append, hloop, nonWs_pystrip]
      · rw [if_neg h2]
        push_neg at h2
        have hc2 : nonWs (splitBufLoop m
            ((splitKeepDelims isSentEnd (pystrip buf)).filter (fun t => t ≠ [])) [] []).2 = [] :=
          nonWs_eq_nil_of_pystrip_eq_nil h2
        rw [nonWs_append, hc2, List.append_nil] at hloop
        rw [hloop, nonWs_pystrip]

theorem nonWs_newline_cons (l : List Char) : nonWs ('\n' :: l) = nonWs l := by
  simp [nonWs, isWs]

theorem chunkLoop_nonWs {m : ℕ} (hm : 1 ≤ m) (ls : List (List Char)) :
    ∀ chunks buf,
      nonWs ((chunkLoop m ls chunks buf).1.flatten ++ (chunkLoop m ls chunks buf).2) =
        nonWs (chunks.flatten ++ (buf ++ ls.flatten)) := by
  induction ls with
  | nil => intro chunks buf; simp [chunkLoop]
  | cons line ls ih =>
    intro chunks buf
    simp only [chunkLoop]
    by_cases hbuf : buf ≠ []
    · rw [if_pos hbuf]
      by_cases hfit : (pystrip (buf ++ '\n' :: pystrip line)).length ≤ m
      · rw [if_pos hfit, ih]
        have hcand : nonWs (pystrip (buf ++ '\n' :: pystrip line)) =
            nonWs buf ++ nonWs line := by
          rw [nonWs_pystrip, nonWs_append, nonWs_newline_cons, nonWs_pystrip]
        simp [nonWs_append, hcand, List.append_assoc]
      · rw [if_neg hfit, ih]
        simp [nonWs_append, split_buf_nonWs hm, nonWs_pystrip, List.append_assoc]
    · rw [if_neg hbuf]
      push_neg at hbuf
      subst hbuf
      by_cases hfit : (pystrip line).length ≤ m
      · rw [if_pos hfit, ih]
        simp [nonWs_append, nonWs_pystrip]
      · rw [if_neg hfit, ih]
        have hnil : _split_buf [] m = [] := by
          have : pystrip ([] : List Char) = [] := rfl
          rw [_split_buf]
          rw [if_pos this]
        rw [hnil]
        simp [nonWs_append, nonWs_pystrip]

theorem map_pystrip_filter_nonWs (cs : List (List Char)) :
    nonWs (((cs.map pystrip).filter (fun c => c ≠ [])).flatten) = nonWs cs.flatten := by
  induction cs with
  | nil => rfl
  | cons c cs ih =>
    by_cases h : pystrip c = []
    · rw [List.map_cons, List.filter_cons, if_neg (by simp [h]), ih,
        List.flatten_cons, nonWs_append, nonWs_eq_nil_of_pystrip_eq_nil h, List.nil_append]
    · rw [List.map_cons, List.filter_cons, if_pos (by simp [h]),
        List.flatten_cons, List.flatten_cons, nonWs_append, nonWs_append, ih, nonWs_pystrip]

theorem isWs_of_isLineBreak {c : Char} (h : isLineBreak c = true) : isWs c = true := by
  simp only [isLineBreak, Bool.or_eq_true, beq_iff_eq] at h
  simp only [isWs, Bool.or_eq_true, beq_iff_eq]
  tauto

theorem nonWs_filter_not (p : Char → Bool) (hp : ∀ c, p c = true → isWs c = true)
    (l : List Char) : nonWs (l.filter (fun c => !(p c))) = nonWs l := by
  rw [nonWs, nonWs, List.filter_filter]
  congr 1
  funext c
  by_cases hpc : p c = true
  · simp [hpc, hp c hpc]
  · simp [hpc]

/-- Claim C4: for every input text and every max_chars at least 1, the
whitespace-normalized concatenation of the chunks returned by chunk_text
equals the whitespace-normalized input text: no characters other than
whitespace and formatting are lost or reordered. -/
theorem chunk_text_lossless (text0 : List Char) (m : ℕ) (hm : 1 ≤ m) :
    nonWs ((chunk_text text0 m).flatten) = nonWs text0 := by
  rw [chunk_text]
  by_cases h0 : pystrip text0 = []
  · rw [if_pos h0, nonWs_eq_nil_of_pystrip_eq_nil h0]
    rfl
  · rw [if_neg h0]
    simp only []
    have hlines : nonWs ((pysplitlines (pystrip text0)).flatten) = nonWs (pystrip text0) := by
      rw [pysplitlines, flatten_splitOnPred]
      exact nonWs_filter_not isLineBreak (fun c h => isWs_of_isLineBreak h) _
    have hloop := chunkLoop_nonWs hm (pysplitlines (pystrip text0)) [] []
    simp only [List.flatten_nil, List.nil_append] at hloop
    rw [hlines] at hloop
    rw [map_pystrip_filter_nonWs]
    by_cases h2 : pystrip (chunkLoop m (pysplitlines (pystrip text0)) [] []).2 ≠ []
    · rw [if_pos h2, List.flatten_append, nonWs_append, split_buf_nonWs hm,
        ← nonWs_append, hloop, nonWs_pystrip]
    · rw [if_neg h2]
      push_neg at h2
      have hc2 : nonWs (chunkLoop m (pysplitlines (pystrip text0)) [] []).2 = [] :=
        nonWs_eq_nil_of_pystrip_eq_nil h2
      rw [nonWs_append, hc2, List.append_nil] at hloop
      rw [hloop, nonWs_pystrip]

/-! ## src/outputs/tts_edge.py -/

/-- MAX_MB = 9.5 (tts_edge.py line 14). -/
def MAX_MB : ℚ := 9.5

/-- MAX_BYTES = int(MAX_MB * 1024 * 1024) (tts_edge.py line 15). -/
def MAX_BYTES : ℕ := (⌊MAX_MB * 1024 * 1024⌋).toNat

theorem MAX_BYTES_eq : MAX_BYTES = 9961472 := by
  have h : (MAX_MB * 1024 * 1024 : ℚ) = ((9961472 : ℤ) : ℚ) := by norm_num [MAX_MB]
  rw [MAX_BYTES, h, Int.floor_intCast]
  rfl

/-- MIN_SPLIT_CHARS = 400 (tts_edge.py line 18). -/
def MIN_SPLIT_CHARS : ℕ := 400

/-- SPLIT_PUNCT (tts_edge.py lines 21-24). -/
def SPLIT_PUNCT : List Char :=
  ['\n', '。', '！', '？', '.', '!', '?', '；', ';', '，', ',', ':', '：']

/-- The scan of _pick_split_point over indices in the search window, keeping
the earliest index of minimal distance to mid (Python keeps a candidate only
on strictly smaller distance). State: none, or (best index, its distance). -/
def bestSplitScan (text : List Char) (mid : ℕ) :
    List ℕ → Option (ℕ × ℕ) → Option (ℕ × ℕ)
  | [], best => best
  | i :: is, best =>
    if SPLIT_PUNCT.contains (text.getD i ' ') then
      let dist := if mid ≤ i then i - mid else mid - i
      match best with
      | none => bestSplitScan text mid is (some (i, dist))
      | some (bi, bd) =>
        if dist < bd then bestSplitScan text mid is (some (i, dist))
        else bestSplitScan text mid is (some (bi, bd))
    else bestSplitScan text mid is best

/-- Model of _pick_split_point (tts_edge.py lines 62-91). -/
def _pick_split_point (text : List Char) : ℕ :=
  let n := text.length
  let mid := n / 2
  if n < 2 then 1
  else
    let window := min 600 (n / 3)
    let left := max 1 (mid - window)
    let right := min (n - 1) (mid + window)
    match bestSplitScan text mid (List.range' left (right - left)) none with
    | none => mid
    | some bd => min (bd.1 + 1) (n - 1)

/-- Model of _split_text_in_two (tts_edge.py lines 94-105). -/
def _split_text_in_two (text : List Char) : List Char × List Char :=
  let cut := _pick_split_point text
  let a := pystrip (text.take cut)
  let b := pystrip (text.drop cut)
  if a = [] ∨ b = [] then
    let mid := text.length / 2
    (pystrip (text.take mid), pystrip (text.drop mid))
  else (a, b)

theorem pick_split_point_bounds {text : List Char} (h2 : 2 ≤ text.length) :
    1 ≤ _pick_split_point text ∧ _pick_split_point text ≤ text.length - 1 := by
  rw [_pick_split_point]
  have hn : ¬ text.length < 2 := by omega
  rw [if_neg hn]
  simp only []
  split
  · constructor <;> omega
  · refine ⟨le_min (by omega) (by omega), min_le_right _ _⟩

theorem split_two_shorter {text : List Char} (h2 : 2 ≤ text.length) :
    (_split_text_in_two text).1.length < text.length ∧
      (_split_text_in_two text).2.length < text.length := by
  rw [_split_text_in_two]
  obtain ⟨hc1, hc2⟩ := pick_split_point_bounds h2
  have htake : (pystrip (text.take (_pick_split_point text))).length < text.length := by
    have := pystrip_length_le (text.take (_pick_split_point text))
    have hlt : (text.take (_pick_split_point text)).length ≤ text.length - 1 := by
      simp only [List.length_take]
      omega
    omega
  have hdrop : (pystrip (text.drop (_pick_split_point text))).length < text.length := by
    have := pystrip_length_le (text.drop (_pick_split_point text))
    have hlt : (text.drop (_pick_split_point text)).length ≤ text.length - 1 := by
      simp only [List.length_drop]
      omega
    omega
  have hmid1 : (pystrip (text.take (text.length / 2))).length < text.length := by
    have := pystrip_length_le (text.take (text.length / 2))
    have hlt : (text.take (text.length / 2)).length ≤ text.length - 1 := by
      simp only [List.length_take]
      omega
    omega
  have hmid2 : (pystrip (text.drop (text.length / 2))).length < text.length := by
    have := pystrip_length_le (text.drop (text.length / 2))
    have hlt : (text.drop (text.length / 2)).length ≤ text.length - 1 := by
      simp only [List.length_drop]
      omega
    omega
  by_cases hab : pystrip (text.take (_pick_split_point text)) = [] ∨
      pystrip (text.drop (_pick_split_point text)) = []
  · rw [if_pos hab]
    exact ⟨hmid1, hmid2⟩
  · rw [if_neg hab]
    exact ⟨htake, hdrop⟩

/-- Outcome of one call of _save_one for a piece of text, as observed by
generate_with_size_limit: the call raised (err), the call returned but
os.path.getsize failed on the written path (noFile), or the call returned
and the written file has the given byte size (ok). -/
inductive SynthOutcome where
  | err : SynthOutcome
  | noFile : SynthOutcome
  | ok : ℕ → SynthOutcome
deriving DecidableEq

/-- One produced part file part_{num:03d}.mp3: its sequence number, the
source text it was synthesized from, and its byte size on disk. -/
structure PartFile where
  num : ℕ
  text : List Char
  size : ℕ
deriving DecidableEq

/-- The closure state of tts_text_to_mp3_chunked: the nonlocal counter and
the part_files list. -/
structure GenState where
  counter : ℕ
  part_files : List PartFile
deriving DecidableEq

/-- Model of generate_with_size_limit (tts_edge.py lines 132-167), with the
synthesis call abstracted as an outcome oracle keyed by the text. A raise
inside _save_one propagates (Except.error); the branch where the written
file cannot be read returns without appending and without rolling the
counter back; an accepted file is appended; an oversized unit with text of
length at least MIN_SPLIT_CHARS is deleted, the counter rolled back, and
both halves of the bisected text processed recursively. -/
def generateS (synth : List Char → SynthOutcome) (t : List Char) (st : GenState) :
    Except Unit GenState :=
  match synth t with
  | .err => .error ()
  | .noFile => .ok ⟨st.counter + 1, st.part_files⟩
  | .ok size =>
    if size ≤ MAX_BYTES then
      .ok ⟨st.counter + 1, st.part_files ++ [⟨st.counter + 1, t, size⟩]⟩
    else if _hlen : t.length < MIN_SPLIT_CHARS then
      .ok ⟨st.counter + 1, st.part_files ++ [⟨st.counter + 1, t, size⟩]⟩
    else
      match generateS synth (_split_text_in_two t).1
          ⟨st.counter + 1 - 1, st.part_files⟩ with
      | .error e => .error e
      | .ok st2 => generateS synth (_split_text_in_two t).2 st2
termination_by t.length
decreasing_by
  · have h2 : 2 ≤ t.length := by
      rw [MIN_SPLIT_CHARS] at _hlen
      omega
    exact (split_two_shorter h2).1
  · have h2 : 2 ≤ t.length := by
      rw [MIN_SPLIT_CHARS] at _hlen
      omega
    exact (split_two_shorter h2).2

/-- The chunk loop of tts_text_to_mp3_chunked (tts_edge.py lines 177-181):
each chunk is stripped, blank chunks are skipped, the rest are passed to
generate_with_size_limit. -/
def ttsLoop (synth : List Char → SynthOutcome) :
    List (List Char) → GenState → Except Unit GenState
  | [], st => .ok st
  | ch :: rest, st =>
    if pystrip ch = [] then ttsLoop synth rest st
    else
      match generateS synth (pystrip ch) st with
      | .error e => .error e
      | .ok st2 => ttsLoop synth rest st2

/-- Model of tts_text_to_mp3_chunked (tts_edge.py lines 108-183). -/
def tts_text_to_mp3_chunked (synth : List Char → SynthOutcome) (text : List Char)
    (chunk_chars : ℕ) : Except Unit (List PartFile) :=
  match ttsLoop synth (chunk_text text chunk_chars) ⟨0, []⟩ with
  | .error e => .error e
  | .ok st => .ok st.part_files

/-! ### Unfolding equations for generateS (well-founded recursion does not
reduce definitionally, so concrete runs are evaluated through these). -/

theorem generateS_err {synth : List Char → SynthOutcome} {t : List Char} {st : GenState}
    (h : synth t = .err) : generateS synth t st = .error () := by
  rw [generateS.eq_def, h]

theorem generateS_noFile {synth : List Char → SynthOutcome} {t : List Char} {st : GenState}
    (h : synth t = .noFile) :
    generateS synth t st = .ok ⟨st.counter + 1, st.part_files⟩ := by
  rw [generateS.eq_def, h]

theorem generateS_accept {synth : List Char → SynthOutcome} {t : List Char} {st : GenState}
    {s : ℕ} (h : synth t = .ok s) (hs : s ≤ MAX_BYTES) :
    generateS synth t st =
      .ok ⟨st.counter + 1, st.part_files ++ [⟨st.counter + 1, t, s⟩]⟩ := by
  rw [generateS.eq_def, h]
  simp only [if_pos hs]

theorem generateS_accept_small {synth : List Char → SynthOutcome} {t : List Char}
    {st : GenState} {s : ℕ} (h : synth t = .ok s) (hs : ¬ s ≤ MAX_BYTES)
    (hlen : t.length < MIN_SPLIT_CHARS) :
    generateS synth t st =
      .ok ⟨st.counter + 1, st.part_files ++ [⟨st.counter + 1, t, s⟩]⟩ := by
  rw [generateS.eq_def, h]
  simp only [if_neg hs]
  rw [dif_pos hlen]

theorem generateS_bisect {synth : List Char → SynthOutcome} {t : List Char} {st : GenState}
    {s : ℕ} (h : synth t = .ok s) (hs : ¬ s ≤ MAX_BYTES)
    (hlen : ¬ t.length < MIN_SPLIT_CHARS) :
    generateS synth t st =
      match generateS synth (_split_text_in_two t).1
          ⟨st.counter + 1 - 1, st.part_files⟩ with
      | .error e => .error e
      | .ok st2 => generateS synth (_split_text_in_two t).2 st2 := by
  rw [generateS.eq_def, h]
  simp only [if_neg hs]
  rw [dif_neg hlen]

theorem ttsLoop_nil (synth : List Char → SynthOutcome) (st : GenState) :
    ttsLoop synth [] st = .ok st := rfl

theorem ttsLoop_cons_skip {synth : List Char → SynthOutcome} {ch : List Char}
    {rest : List (List Char)} {st : GenState} (h : pystrip ch = []) :
    ttsLoop synth (ch :: rest) st = ttsLoop synth rest st := by
  rw [ttsLoop.eq_def]
  simp only []
  rw [if_pos h]

theorem ttsLoop_cons_err {synth : List Char → SynthOutcome} {ch : List Char}
    {rest : List (List Char)} {st : GenState} {e : Unit} (h : ¬ pystrip ch = [])
    (hg : generateS synth (pystrip ch) st = .error e) :
    ttsLoop synth (ch :: rest) st = .error e := by
  rw [ttsLoop.eq_def]
  simp only []
  rw [if_neg h, hg]

theorem ttsLoop_cons_ok {synth : List Char → SynthOutcome} {ch : List Char}
    {rest : List (List Char)} {st st2 : GenState} (h : ¬ pystrip ch = [])
    (hg : generateS synth (pystrip ch) st = .ok st2) :
    ttsLoop synth (ch :: rest) st = ttsLoop synth rest st2 := by
  rw [ttsLoop.eq_def]
  simp only []
  rw [if_neg h, hg]

/-! ### Claim C1: the size invariant of the generator -/

theorem generateS_size_inv (synth : List Char → SynthOutcome) :
    ∀ (t : List Char) (st : GenState),
      ∀ st', generateS synth t st = .ok st' →
        (∀ e ∈ st.part_files, e.size ≤ MAX_BYTES ∨ e.text.length < MIN_SPLIT_CHARS) →
        ∀ e ∈ st'.part_files, e.size ≤ MAX_BYTES ∨ e.text.length < MIN_SPLIT_CHARS := by
  intro t st
  induction t, st using generateS.induct synth with
  | case1 t st hsynth =>
    intro st' hrun hinv
    rw [generateS_err hsynth] at hrun
    exact absurd hrun (by simp)
  | case2 t st hsynth =>
    intro st' hrun hinv
    rw [generateS_noFile hsynth] at hrun
    obtain rfl : (⟨st.counter + 1, st.part_files⟩ : GenState) = st' := by
      simpa using hrun
    exact hinv
  | case3 t st s hsynth hs =>
    intro st' hrun hinv
    rw [generateS_accept hsynth hs] at hrun
    obtain rfl : (⟨st.counter + 1,
        st.part_files ++ [⟨st.counter + 1, t, s⟩]⟩ : GenState) = st' := by
      simpa using hrun
    intro e he
    simp only [List.mem_append, List.mem_singleton] at he
    rcases he with he | rfl
    · exact hinv e he
    · exact Or.inl hs
  | case4 t st s hsynth hs hlen =>
    intro st' hrun hinv
    rw [generateS_accept_small hsynth hs hlen] at hrun
    obtain rfl : (⟨st.counter + 1,
        st.part_files ++ [⟨st.counter + 1, t, s⟩]⟩ : GenState) = st' := by
      simpa using hrun
    intro e he
    simp only [List.mem_append, List.mem_singleton] at he
    rcases he with he | rfl
    · exact hinv e he
    · exact Or.inr hlen
  | case5 t st s hsynth hs hlen e herr iha =>
    intro st' hrun hinv
    rw [generateS_bisect hsynth hs hlen] at hrun
    rw [herr] at hrun
    exact absurd hrun (by simp)
  | case6 t st s hsynth hs hlen st2 hok iha ihb =>
    intro st' hrun hinv
    rw [generateS_bisect hsynth hs hlen] at hrun
    rw [hok] at hrun
    exact ihb st' hrun (iha st2 hok hinv)

theorem ttsLoop_size_inv (synth : List Char → SynthOutcome) :
    ∀ (chunks : List (List Char)) (st st' : GenState),
      ttsLoop synth chunks st = .ok st' →
      (∀ e ∈ st.part_files, e.size ≤ MAX_BYTES ∨ e.text.length < MIN_SPLIT_CHARS) →
      ∀ e ∈ st'.part_files, e.size ≤ MAX_BYTES ∨ e.text.length < MIN_SPLIT_CHARS := by
  intro chunks
  induction chunks with
  | nil =>
    intro st st' hrun hinv
    obtain rfl : st = st' := by simpa [ttsLoop] using hrun
    exact hinv
  | cons ch rest ih =>
    intro st st' hrun hinv
    rw [ttsLoop.eq_def] at hrun
    simp only [] at hrun
    by_cases hc : pystrip ch = []
    · rw [if_pos hc] at hrun
      exact ih st st' hrun hinv
    · rw [if_neg hc] at hrun
      match hgen : generateS synth (pystrip ch) st with
      | .error e => rw [hgen] at hrun; exact absurd hrun (by simp)
      | .ok st2 =>
        rw [hgen] at hrun
        exact ih st2 st' hrun (generateS_size_inv synth (pystrip ch) st st2 hgen hinv)

/-- Claim C1: every part file kept in the output list of
tts_text_to_mp3_chunked has byte size at most MAX_BYTES, or else the source
text it was synthesized from has length strictly below MIN_SPLIT_CHARS.
Equivalently, a unit over the ceiling whose text has length at least
MIN_SPLIT_CHARS is never in the output (the definition of generateS
discards it and recurses on the two halves of the bisected text). -/
theorem tts_chunked_size_invariant (synth : List Char → SynthOutcome)
    (text : List Char) (chunk_chars : ℕ) (pf : List PartFile)
    (h : tts_text_to_mp3_chunked synth text chunk_chars = .ok pf) :
    ∀ e ∈ pf, e.size ≤ MAX_BYTES ∨ e.text.length < MIN_SPLIT_CHARS := by
  rw [tts_text_to_mp3_chunked] at h
  match hloop : ttsLoop synth (chunk_text text chunk_chars) ⟨0, []⟩ with
  | .error e => rw [hloop] at h; exact absurd h (by simp)
  | .ok st =>
    rw [hloop] at h
    obtain rfl : st.part_files = pf := by simpa using h
    exact ttsLoop_size_inv synth (chunk_text text chunk_chars) ⟨0, []⟩ st hloop
      (by intro e he; simp at he)

/-- Witness for C1: a concrete run in which the oracle reports a 5-byte file
for the single chunk; the returned part satisfies the size invariant. -/
theorem tts_chunked_size_invariant_witness :
    tts_text_to_mp3_chunked (fun _ => .ok 5) ['a', 'b'] 10 = .ok [⟨1, ['a', 'b'], 5⟩] ∧
      ∀ e ∈ [(⟨1, ['a', 'b'], 5⟩ : PartFile)],
        e.size ≤ MAX_BYTES ∨ e.text.length < MIN_SPLIT_CHARS := by
  have hchunks : chunk_text ['a', 'b'] 10 = [['a', 'b']] := by decide
  have hstep : generateS (fun _ => .ok 5) (pystrip ['a', 'b']) ⟨0, []⟩ =
      .ok ⟨1, [⟨1, pystrip ['a', 'b'], 5⟩]⟩ :=
    generateS_accept rfl (by rw [MAX_BYTES_eq]; omega)
  have hrun : tts_text_to_mp3_chunked (fun _ => .ok 5) ['a', 'b'] 10 =
      .ok [⟨1, ['a', 'b'], 5⟩] := by
    rw [tts_text_to_mp3_chunked, hchunks,
      ttsLoop_cons_ok (by decide) hstep, ttsLoop_nil]
    rfl
  exact ⟨hrun, tts_chunked_size_invariant _ _ _ _ hrun⟩

/-! ### Claim C2: contiguity of sequence numbers -/

theorem generateS_nums (synth : List Char → SynthOutcome)
    (hnf : ∀ u, synth u ≠ .noFile) :
    ∀ (t : List Char) (st : GenState), ∀ st', generateS synth t st = .ok st' →
      st.counter < st'.counter ∧
      st'.part_files.map (fun e => e.num) =
        st.part_files.map (fun e => e.num) ++
          List.range' (st.counter + 1) (st'.counter - st.counter) := by
  intro t st
  induction t, st using generateS.induct synth with
  | case1 t st hsynth =>
    intro st' hrun
    rw [generateS_err hsynth] at hrun
    exact absurd hrun (by simp)
  | case2 t st hsynth =>
    intro st' hrun
    exact absurd hsynth (hnf t)
  | case3 t st s hsynth hs =>
    intro st' hrun
    rw [generateS_accept hsynth hs] at hrun
    obtain rfl : (⟨st.counter + 1,
        st.part_files ++ [⟨st.counter + 1, t, s⟩]⟩ : GenState) = st' := by
      simpa using hrun
    refine ⟨Nat.lt_succ_self _, ?_⟩
    have h1 : st.counter + 1 - st.counter = 1 := by omega
    simp [h1, List.range'_one]
  | case4 t st s hsynth hs hlen =>
    intro st' hrun
    rw [generateS_accept_small hsynth hs hlen] at hrun
    obtain rfl : (⟨st.counter + 1,
        st.part_files ++ [⟨st.counter + 1, t, s⟩]⟩ : GenState) = st' := by
      simpa using hrun
    refine ⟨Nat.lt_succ_self _, ?_⟩
    have h1 : st.counter + 1 - st.counter = 1 := by omega
    simp [h1, List.range'_one]
  | case5 t st s hsynth hs hlen e herr iha =>
    intro st' hrun
    rw [generateS_bisect hsynth hs hlen] at hrun
    rw [herr] at hrun
    exact absurd hrun (by simp)
  | case6 t st s hsynth hs hlen st2 hok iha ihb =>
    intro st' hrun
    rw [generateS_bisect hsynth hs hlen] at hrun
    rw [hok] at hrun
    obtain ⟨h1a, h1b⟩ := iha st2 hok
    obtain ⟨h2a, h2b⟩ := ihb st' hrun
    simp only [Nat.add_sub_cancel] at h1a h1b
    refine ⟨by omega, ?_⟩
    rw [h2b, h1b, List.append_assoc]
    congr 1
    have hr := List.range'_append (st.counter + 1) (st2.counter - st.counter)
      (st'.counter - st2.counter) 1
    rw [one_mul] at hr
    have heq : st.counter + 1 + (st2.counter - st.counter) = st2.counter + 1 := by
      omega
    rw [heq] at hr
    rw [hr]
    have hk : st'.counter - st2.counter + (st2.counter - st.counter) =
        st'.counter - st.counter := by omega
    rw [hk]

theorem ttsLoop_nums (synth : List Char → SynthOutcome)
    (hnf : ∀ u, synth u ≠ .noFile) :
    ∀ (chunks : List (List Char)) (st st' : GenState),
      ttsLoop synth chunks st = .ok st' →
      st.counter ≤ st'.counter ∧
      st'.part_files.map (fun e => e.num) =
        st.part_files.map (fun e => e.num) ++
          List.range' (st.counter + 1) (st'.counter - st.counter) := by
  intro chunks
  induction chunks with
  | nil =>
    intro st st' hrun
    obtain rfl : st = st' := by simpa [ttsLoop] using hrun
    simp
  | cons ch rest ih =>
    intro st st' hrun
    by_cases hc : pystrip ch = []
    · rw [ttsLoop_cons_skip hc] at hrun
      exact ih st st' hrun
    · match hgen : generateS synth (pystrip ch) st with
      | .error e =>
        rw [ttsLoop_cons_err hc hgen] at hrun
        exact absurd hrun (by simp)
      | .ok st2 =>
        rw [ttsLoop_cons_ok hc hgen] at hrun
        obtain ⟨h1a, h1b⟩ := generateS_nums synth hnf (pystrip ch) st st2 hgen
        obtain ⟨h2a, h2b⟩ := ih st2 st' hrun
        refine ⟨by omega, ?_⟩
        rw [h2b, h1b, List.append_assoc]
        congr 1
        have hr := List.range'_append (st.counter + 1) (st2.counter - st.counter)
          (st'.counter - st2.counter) 1
        rw [one_mul] at hr
        have heq : st.counter + 1 + (st2.counter - st.counter) = st2.counter + 1 := by
          omega
        rw [heq] at hr
        rw [hr]
        have hk : st'.counter - st2.counter + (st2.counter - st.counter) =
            st'.counter - st.counter := by omega
        rw [hk]

/-- Claim C2 (amended): when every synthesis call leaves a readable file
(the oracle never reports noFile), the part files returned by
tts_text_to_mp3_chunked carry contiguous sequence numbers 1..N: discarded
oversized attempts roll the counter back and leave no gap. The unreadable
file branch, by contrast, advances the counter without rolling it back and
can leave a gap (see the counterexample). -/
theorem tts_chunked_contiguous (synth : List Char → SynthOutcome)
    (hnf : ∀ u, synth u ≠ .noFile) (text : List Char) (chunk_chars : ℕ)
    (pf : List PartFile)
    (h : tts_text_to_mp3_chunked synth text chunk_chars = .ok pf) :
    pf.map (fun e => e.num) = List.range' 1 pf.length := by
  rw [tts_text_to_mp3_chunked] at h
  match hloop : ttsLoop synth (chunk_text text chunk_chars) ⟨0, []⟩ with
  | .error e => rw [hloop] at h; exact absurd h (by simp)
  | .ok st =>
    rw [hloop] at h
    obtain rfl : st.part_files = pf := by simpa using h
    obtain ⟨_h1, h2⟩ := ttsLoop_nums synth hnf (chunk_text text chunk_chars) ⟨0, []⟩ st hloop
    simp only [List.map_nil, List.nil_append, Nat.sub_zero] at h2
    have hlen : st.part_files.length = st.counter := by
      have := congrArg List.length h2
      simpa using this
    rw [h2, hlen]

/-- The oracle of the C2 counterexample: synthesis of the first chunk
returns but leaves no readable file; every other chunk synthesizes to a
5-byte file. -/
def noFileOracle : List Char → SynthOutcome :=
  fun t => if t = ['a', 'a'] then .noFile else .ok 5

/-- Counterexample to claim C2 as stated: with two chunks aa and bb where
the first synthesis leaves no readable file, the run returns a single part
numbered 2, not 1..N = [1] — the unreadable-file branch does not roll the
counter back, so the numbering has a gap. -/
theorem tts_chunked_gap_counterexample :
    tts_text_to_mp3_chunked noFileOracle ['a', 'a', '\n', 'b', 'b'] 2 =
      .ok [⟨2, ['b', 'b'], 5⟩] ∧
    ¬ ([(⟨2, ['b', 'b'], 5⟩ : PartFile)].map (fun e => e.num) =
        List.range' 1 [(⟨2, ['b', 'b'], 5⟩ : PartFile)].length) := by
  constructor
  · have hchunks : chunk_text ['a', 'a', '\n', 'b', 'b'] 2 = [['a', 'a'], ['b', 'b']] := by
      decide
    have hstep1 : generateS noFileOracle (pystrip ['a', 'a']) ⟨0, []⟩ = .ok ⟨1, []⟩ :=
      generateS_noFile (by decide)
    have hstep2 : generateS noFileOracle (pystrip ['b', 'b']) ⟨1, []⟩ =
        .ok ⟨2, [⟨2, pystrip ['b', 'b'], 5⟩]⟩ :=
      generateS_accept (by decide) (by rw [MAX_BYTES_eq]; omega)
    rw [tts_text_to_mp3_chunked, hchunks,
      ttsLoop_cons_ok (by decide) hstep1,
      ttsLoop_cons_ok (by decide) hstep2, ttsLoop_nil]
    rfl
  · decide

/-- Witness for C2 (amended): a run whose oracle always yields a readable
file returns parts numbered contiguously from 1. -/
theorem tts_chunked_contiguous_witness :
    (∀ u, (fun (_ : List Char) => SynthOutcome.ok 5) u ≠ .noFile) ∧
    tts_text_to_mp3_chunked (fun _ => .ok 5) ['a', 'b'] 10 = .ok [⟨1, ['a', 'b'], 5⟩] ∧
    [(⟨1, ['a', 'b'], 5⟩ : PartFile)].map (fun e => e.num) =
      List.range' 1 [(⟨1, ['a', 'b'], 5⟩ : PartFile)].length := by
  have hnf : ∀ u, (fun (_ : List Char) => SynthOutcome.ok 5) u ≠ .noFile := by
    intro u h
    cases h
  have hchunks : chunk_text ['a', 'b'] 10 = [['a', 'b']] := by decide
  have hstep : generateS (fun _ => .ok 5) (pystrip ['a', 'b']) ⟨0, []⟩ =
      .ok ⟨1, [⟨1, pystrip ['a', 'b'], 5⟩]⟩ :=
    generateS_accept rfl (by rw [MAX_BYTES_eq]; omega)
  have hrun : tts_text_to_mp3_chunked (fun _ => .ok 5) ['a', 'b'] 10 =
      .ok [⟨1, ['a', 'b'], 5⟩] := by
    rw [tts_text_to_mp3_chunked, hchunks,
      ttsLoop_cons_ok (by decide) hstep, ttsLoop_nil]
    rfl
  exact ⟨hnf, hrun, tts_chunked_contiguous _ hnf _ _ _ hrun⟩

/-! ### Claim C3: a synthesis failure propagates and aborts the run -/

/-- The oracle of the C3 theorems: every synthesis attempt exhausts all
candidates and raises. -/
def allFailOracle : List Char → SynthOutcome :=
  fun _ => .err

theorem ttsLoop_all_err (synth : List Char → SynthOutcome)
    (herr : ∀ u, synth u = .err) :
    ∀ (chunks : List (List Char)) (st : GenState),
      (∃ ch ∈ chunks, pystrip ch ≠ []) →
      ttsLoop synth chunks st = .error () := by
  intro chunks
  induction chunks with
  | nil =>
    intro st hex
    obtain ⟨ch, hmem, _⟩ := hex
    exact absurd hmem (by simp)
  | cons ch rest ih =>
    intro st hex
    by_cases hc : pystrip ch = []
    · rw [ttsLoop_cons_skip hc]
      obtain ⟨ch2, hmem, hne⟩ := hex
      rcases List.mem_cons.mp hmem with rfl | hmem2
      · exact absurd hc hne
      · exact ih st ⟨ch2, hmem2, hne⟩
    · exact ttsLoop_cons_err hc (generateS_err (herr (pystrip ch)))

/-- Claim C3 (amended): when synthesis of a chunk fails after all retries,
fallback voices and the secondary engine, _save_one raises; the exception
is not caught in tts_text_to_mp3_chunked, so the whole generation run
aborts with no part list (here: for an oracle that always raises and an
input with at least one nonblank chunk, the run returns an error). -/
theorem tts_chunked_failure_aborts (synth : List Char → SynthOutcome)
    (herr : ∀ u, synth u = .err) (text : List Char) (chunk_chars : ℕ)
    (hne : ∃ ch ∈ chunk_text text chunk_chars, pystrip ch ≠ []) :
    tts_text_to_mp3_chunked synth text chunk_chars = .error () := by
  rw [tts_text_to_mp3_chunked]
  rw [ttsLoop_all_err synth herr (chunk_text text chunk_chars) ⟨0, []⟩ hne]

/-- Counterexample to claim C3 as stated: a single chunk whose synthesis
exhausts every candidate makes the whole run return an error — the failure
is not caught locally and does abort the generation run. -/
theorem tts_chunked_failure_counterexample :
    tts_text_to_mp3_chunked allFailOracle ['a', 'b'] 10 = .error () := by
  have hchunks : chunk_text ['a', 'b'] 10 = [['a', 'b']] := by decide
  rw [tts_text_to_mp3_chunked, hchunks,
    ttsLoop_cons_err (by decide) (generateS_err rfl)]

/-- Witness for C3 (amended) at a concrete failing oracle and input. -/
theorem tts_chunked_failure_aborts_witness :
    (∀ u, allFailOracle u = .err) ∧
    (∃ ch ∈ chunk_text ['c', 'd'] 10, pystrip ch ≠ []) ∧
    tts_text_to_mp3_chunked allFailOracle ['c', 'd'] 10 = .error () := by
  refine ⟨fun _ => rfl, by decide, ?_⟩
  exact tts_chunked_failure_aborts allFailOracle (fun _ => rfl) ['c', 'd'] 10 (by decide)

/-- Witness for C4 at a concrete text and bound. -/
theorem chunk_text_lossless_witness :
    1 ≤ 5 ∧
    nonWs ((chunk_text ['a', 'b', ' ', 'c', '\n', 'd'] 5).flatten) =
      nonWs ['a', 'b', ' ', 'c', '\n', 'd'] :=
  ⟨by decide, chunk_text_lossless ['a', 'b', ' ', 'c', '\n', 'd'] 5 (by decide)⟩

/-! ## _save_one and _voice_candidates (tts_edge.py lines 27-59, claim C8) -/

/-- The hard-coded fallback voices of _voice_candidates (tts_edge.py 29-34). -/
def common_fallback_voices : List String :=
  ["en-US-GuyNeural", "en-US-AriaNeural", "en-GB-RyanNeural", "en-GB-SoniaNeural"]

/-- Model of _voice_candidates (tts_edge.py lines 27-36):
the primary voice first, then the common fallbacks other than it. -/
def _voice_candidates (primary : String) : List String :=
  primary :: common_fallback_voices.filter (fun v => v ≠ primary)

/-- The attempt numbers of the retry loop: range(1, 4). -/
def attemptNums : List ℕ := [1, 2, 3]

/-- What _save_one produced on success: an edge-tts unit from a given voice
at a given attempt number, or a gTTS unit from the secondary engine. -/
inductive SaveResult where
  | edge : String → ℕ → SaveResult
  | gtts : SaveResult
deriving DecidableEq

/-- The inner retry loop of _save_one (tts_edge.py lines 42-49) for one voice:
returns the first attempt number at which edge-tts succeeded (none when all
attempts fail) together with the backoff sleeps performed, in seconds: after
each failed attempt the code sleeps 0.8 * attempt. -/
def tryVoice (edgeOk : String → ℕ → Bool) (v : String) : List ℕ → Option ℕ × List ℚ
  | [] => (none, [])
  | a :: rest =>
    if edgeOk v a then (some a, [])
    else
      ((tryVoice edgeOk v rest).1, (8 / 10 : ℚ) * a :: (tryVoice edgeOk v rest).2)

/-- The outer candidate loop of _save_one (tts_edge.py lines 41-49): voices
in candidate order, three attempts each; returns the first succeeding
(voice, attempt) and the sleeps performed so far. -/
def saveOneLoop (edgeOk : String → ℕ → Bool) :
    List String → Option (String × ℕ) × List ℚ
  | [] => (none, [])
  | v :: vs =>
    match tryVoice edgeOk v attemptNums with
    | (some a, ds) => (some (v, a), ds)
    | (none, ds) => ((saveOneLoop edgeOk vs).1, ds ++ (saveOneLoop edgeOk vs).2)

/-- Model of _save_one (tts_edge.py lines 39-59): edge-tts attempts over all
voice candidates, then one gTTS attempt as a last resort, then raise. The
result carries which engine and attempt produced the single output file, or
an error after every candidate is exhausted; the second component is the
list of backoff sleeps performed. -/
def _save_one (edgeOk : String → ℕ → Bool) (gttsOk : Bool) (voice : String) :
    Except Unit SaveResult × List ℚ :=
  match saveOneLoop edgeOk (_voice_candidates voice) with
  | (some va, ds) => (.ok (.edge va.1 va.2), ds)
  | (none, ds) => if gttsOk then (.ok .gtts, ds) else (.error (), ds)

/-- The flattened attempt plan of _save_one on the primary engine: every
candidate voice in order, attempts 1..3 each. -/
def attemptSeq (voice : String) : List (String × ℕ) :=
  (_voice_candidates voice).flatMap (fun v => attemptNums.map (fun a => (v, a)))

theorem tryVoice_spec (edgeOk : String → ℕ → Bool) (v : String) :
    ∀ attempts : List ℕ,
      (tryVoice edgeOk v attempts).1 = attempts.find? (fun a => edgeOk v a) ∧
      (tryVoice edgeOk v attempts).2 =
        (attempts.takeWhile (fun a => !(edgeOk v a))).map (fun a => (8 / 10 : ℚ) * a) := by
  intro attempts
  induction attempts with
  | nil => exact ⟨rfl, rfl⟩
  | cons a rest ih =>
    by_cases h : edgeOk v a
    · simp [tryVoice, h, List.find?_cons, List.takeWhile_cons]
    · simp only [tryVoice, if_neg h]
      simp [List.find?_cons, List.takeWhile_cons, h, ih.1, ih.2]

theorem saveOneLoop_spec (edgeOk : String → ℕ → Bool) :
    ∀ vs : List String,
      (saveOneLoop edgeOk vs).1 =
        (vs.flatMap (fun v => attemptNums.map (fun a => (v, a)))).find?
          (fun p => edgeOk p.1 p.2) := by
  intro vs
  induction vs with
  | nil => rfl
  | cons v vs ih =>
    rw [saveOneLoop]
    have hfind : (attemptNums.map (fun a => (v, a))).find? (fun p => edgeOk p.1 p.2) =
        Option.map (fun a => (v, a)) (attemptNums.find? (fun a => edgeOk v a)) := by
      rw [List.find?_map]
      rfl
    match htry : tryVoice edgeOk v attemptNums with
    | (some a, ds) =>
      have h1 := (tryVoice_spec edgeOk v attemptNums).1
      rw [htry] at h1
      simp only [List.flatMap_cons, List.find?_append, hfind, ← h1]
      rfl
    | (none, ds) =>
      have h1 := (tryVoice_spec edgeOk v attemptNums).1
      rw [htry] at h1
      simp only [List.flatMap_cons, List.find?_append, hfind, ← h1, ih]
      rfl

/-- Claim C8 (amended): for every synthesized unit, _save_one attempts the
primary voice up to three times, then advances through the ordered fallback
voices with the same retry policy, then attempts gTTS as a last resort, and
raises only after every candidate is exhausted; on the first success it
stops and produces exactly one unit. The backoff between attempts is
LINEAR, 0.8 * attempt seconds after the failed attempt number a (not
exponential as the spec states; see the counterexample). -/
theorem save_one_spec (edgeOk : String → ℕ → Bool) (gttsOk : Bool) (voice : String) :
    ((_save_one edgeOk gttsOk voice).1 =
      match (attemptSeq voice).find? (fun p => edgeOk p.1 p.2) with
      | some va => .ok (.edge va.1 va.2)
      | none => if gttsOk then .ok .gtts else .error ()) ∧
    (∀ (v : String) (attempts : List ℕ),
      (tryVoice edgeOk v attempts).2 =
        (attempts.takeWhile (fun a => !(edgeOk v a))).map (fun a => (8 / 10 : ℚ) * a)) := by
  refine ⟨?_, fun v attempts => (tryVoice_spec edgeOk v attempts).2⟩
  have hsave : (_save_one edgeOk gttsOk voice).1 =
      (match (saveOneLoop edgeOk (_voice_candidates voice)).1 with
       | some va => Except.ok (SaveResult.edge va.1 va.2)
       | none => if gttsOk then Except.ok SaveResult.gtts else Except.error ()) := by
    unfold _save_one
    rcases hsl : saveOneLoop edgeOk (_voice_candidates voice) with ⟨o, ds⟩
    cases o with
    | some va => rfl
    | none => cases gttsOk <;> rfl
  rw [hsave, saveOneLoop_spec edgeOk (_voice_candidates voice)]
  rfl

/-- Counterexample to claim C8 as stated: the sleeps of the per-voice retry
loop when all three attempts fail are 0.8, 1.6, 2.4 seconds — an arithmetic
(linear) progression, not a geometric one, so the backoff is not
exponential. -/
theorem save_one_backoff_counterexample :
    (tryVoice (fun _ _ => false) "en-US-GuyNeural" attemptNums).2 =
      [4 / 5, 8 / 5, 12 / 5] ∧
    ¬ ∃ c r : ℚ, 1 < r ∧
        (tryVoice (fun _ _ => false) "en-US-GuyNeural" attemptNums).2 =
          [c, c * r, c * r ^ 2] := by
  have h : (tryVoice (fun _ _ => false) "en-US-GuyNeural" attemptNums).2 =
      [4 / 5, 8 / 5, 12 / 5] := by
    simp only [tryVoice, attemptNums]
    norm_num
  refine ⟨h, ?_⟩
  rintro ⟨c, r, hr, heq⟩
  rw [h] at heq
  simp only [List.cons.injEq, and_true] at heq
  obtain ⟨h1, h2, h3⟩ := heq
  rw [← h1] at h2 h3
  have hr2 : r = 2 := by
    have h5 : (4 / 5 : ℚ) ≠ 0 := by norm_num
    field_simp at h2
    linarith
  rw [hr2] at h3
  norm_num at h3

/-! ## src/outputs/audio.py -/

/-- Model of the assembly loop of concat_mp3_with_transitions (audio.py
lines 151-154): each group's units in order, with the transition cue path
appended after every group except the last (the loop guard i < len - 1). -/
def concatSeq (sfx : String) : List (List String) → List String
  | [] => []
  | [g] => g
  | g :: rest => g ++ sfx :: concatSeq sfx rest

/-- Model of concat_mp3_with_transitions (audio.py lines 140-159): empty
groups are dropped; when nothing remains a RuntimeError is raised; otherwise
the interleaved sequence is handed to _concat_sequence. The sfx argument
models the path returned by _build_transition_sfx; the trailing size-capped
splitting is not modelled here. -/
def concat_mp3_with_transitions (groups : List (List String)) (sfx : String) :
    Except Unit (List String) :=
  if groups.filter (fun g => g ≠ []) = [] then .error ()
  else .ok (concatSeq sfx (groups.filter (fun g => g ≠ [])))

theorem intercalate_cons_ne_nil (sep g : List String) (rest : List (List String))
    (h : rest ≠ []) :
    List.intercalate sep (g :: rest) = g ++ sep ++ List.intercalate sep rest := by
  obtain ⟨r, rs, rfl⟩ := List.exists_cons_of_ne_nil h
  simp [List.intercalate]

theorem concatSeq_eq_intercalate (sfx : String) :
    ∀ ne : List (List String), concatSeq sfx ne = List.intercalate [sfx] ne := by
  intro ne
  induction ne with
  | nil => simp [concatSeq, List.intercalate]
  | cons g rest ih =>
    cases rest with
    | nil => simp [concatSeq, List.intercalate]
    | cons r rs =>
      show g ++ sfx :: concatSeq sfx (r :: rs) = _
      rw [intercalate_cons_ne_nil [sfx] g (r :: rs) (by simp), ih]
      simp

theorem count_concatSeq (sfx : String) :
    ∀ ne : List (List String), ne ≠ [] → (∀ g ∈ ne, sfx ∉ g) →
      (concatSeq sfx ne).count sfx = ne.length - 1 := by
  intro ne
  induction ne with
  | nil => intro h; exact absurd rfl h
  | cons g rest ih =>
    intro _ hmem
    cases rest with
    | nil =>
      show (concatSeq sfx [g]).count sfx = 0
      have : sfx ∉ g := hmem g (by simp)
      simp [concatSeq, List.count_eq_zero.mpr this]
    | cons r rs =>
      have hg : sfx ∉ g := hmem g (by simp)
      have hrest : ∀ g2 ∈ r :: rs, sfx ∉ g2 := fun g2 hm => hmem g2 (by simp [hm])
      show (g ++ sfx :: concatSeq sfx (r :: rs)).count sfx = _
      rw [List.count_append, List.count_cons_self,
        ih (by simp) hrest, List.count_eq_zero.mpr hg]
      simp [Nat.sub_zero]

/-- Claim C5: for every ordered list of groups, the sequence built by
concat_mp3_with_transitions is the nonempty groups in order with the cue
strictly between consecutive groups (List.intercalate with the singleton
cue), never after the last group and never inside a group; empty groups are
omitted without affecting cue placement, and when the cue path occurs in no
group the cue appears exactly N - 1 times for N nonempty groups (0 for
N = 1). -/
theorem concat_transitions_spec (groups : List (List String)) (sfx : String)
    (seq : List String) (h : concat_mp3_with_transitions groups sfx = .ok seq) :
    seq = List.intercalate [sfx] (groups.filter (fun g => g ≠ [])) ∧
    (sfx ∉ groups.flatten →
      seq.count sfx = (groups.filter (fun g => g ≠ [])).length - 1) := by
  rw [concat_mp3_with_transitions] at h
  by_cases hne : groups.filter (fun g => g ≠ []) = []
  · rw [if_pos hne] at h
    exact absurd h (by simp)
  · rw [if_neg hne] at h
    obtain rfl : concatSeq sfx (groups.filter (fun g => g ≠ [])) = seq := by
      simpa using h
    refine ⟨concatSeq_eq_intercalate sfx _, fun hnm => ?_⟩
    refine count_concatSeq sfx _ hne ?_
    intro g hg hsfx
    apply hnm
    rw [List.mem_flatten]
    exact ⟨g, (List.mem_filter.mp hg).1, hsfx⟩

/-- Witness for C5: three submitted groups, one empty; the assembled
sequence has the cue exactly once between each pair of surviving groups. -/
theorem concat_transitions_spec_witness :
    concat_mp3_with_transitions [["a.mp3"], [], ["b.mp3", "c.mp3"]] "sfx.mp3" =
      .ok ["a.mp3", "sfx.mp3", "b.mp3", "c.mp3"] ∧
    ["a.mp3", "sfx.mp3", "b.mp3", "c.mp3"] =
      List.intercalate ["sfx.mp3"]
        ([["a.mp3"], [], ["b.mp3", "c.mp3"]].filter (fun g => g ≠ [])) ∧
    ("sfx.mp3" ∉ ([["a.mp3"], [], ["b.mp3", "c.mp3"]] : List (List String)).flatten →
      (["a.mp3", "sfx.mp3", "b.mp3", "c.mp3"] : List String).count "sfx.mp3" =
        ([["a.mp3"], [], ["b.mp3", "c.mp3"]].filter
          (fun g => g ≠ [] )).length - 1) := by
  have h : concat_mp3_with_transitions [["a.mp3"], [], ["b.mp3", "c.mp3"]] "sfx.mp3" =
      .ok ["a.mp3", "sfx.mp3", "b.mp3", "c.mp3"] := rfl
  obtain ⟨h1, h2⟩ := concat_transitions_spec _ _ _ h
  exact ⟨h, h1, h2⟩

/-! ## The ffmpeg invocations of audio.py (claim C9) -/

/-- The ffmpeg command built by _concat_sequence (audio.py lines 118-125). -/
def concat_cmd (list_file out_mp3 : String) : List String :=
  ["ffmpeg", "-y", "-f", "concat", "-safe", "0", "-i", list_file,
   "-codec:a", "libmp3lame", "-q:a", "4", out_mp3]

/-- The ffmpeg command of one part cut inside
_split_mp3_into_size_limited_parts (audio.py lines 78-85; the shrink-retry
command at lines 95-102 has the same shape with a shorter duration). -/
def split_part_cmd (start dur input out_part : String) : List String :=
  ["ffmpeg", "-y", "-ss", start, "-i", input, "-t", dur, "-c", "copy", out_part]

/-- An ffmpeg invocation performs a lossless stream copy when the flag -c
is directly followed by the value copy. -/
def isStreamCopy (cmd : List String) : Prop :=
  ("-c", "copy") ∈ cmd.zip cmd.tail

/-- An ffmpeg invocation re-encodes the audio when it selects the
libmp3lame encoder through the -codec:a flag. -/
def specifiesEncoder (cmd : List String) : Prop :=
  ("-codec:a", "libmp3lame") ∈ cmd.zip cmd.tail

/-- Counterexample to claim C9 as stated, at the concrete file names of a
run: the concatenation command is NOT a stream copy (it re-encodes with
libmp3lame), and the time-window part cut is NOT a re-encode (it is a
stream copy) — the inverse of the claim in both halves. -/
theorem ffmpeg_codec_counterexample :
    ¬ isStreamCopy (concat_cmd "ffmpeg_concat_list.txt" "podcast.mp3") ∧
    specifiesEncoder (concat_cmd "ffmpeg_concat_list.txt" "podcast.mp3") ∧
    isStreamCopy (split_part_cmd "0.0" "60.0" "podcast.mp3" "podcast_p001.mp3") ∧
    ¬ specifiesEncoder (split_part_cmd "0.0" "60.0" "podcast.mp3" "podcast_p001.mp3") := by
  refine ⟨?_, ?_, ?_, ?_⟩ <;>
    · simp only [isStreamCopy, specifiesEncoder, concat_cmd, split_part_cmd]
      decide

/-- Claim C9 (amended): for all arguments, the concatenation command
re-encodes with libmp3lame and performs no stream copy, while the
time-window part extraction performs a stream copy and selects no encoder
— the opposite of the claimed assignment. -/
theorem ffmpeg_codec_spec (list_file out_mp3 start dur input out_part : String) :
    specifiesEncoder (concat_cmd list_file out_mp3) ∧
    ¬ isStreamCopy (concat_cmd list_file out_mp3) ∧
    isStreamCopy (split_part_cmd start dur input out_part) ∧
    ¬ specifiesEncoder (split_part_cmd start dur input out_part) := by
  refine ⟨?_, ?_, ?_, ?_⟩
  · simp [specifiesEncoder, concat_cmd]
  · simp [isStreamCopy, concat_cmd]
  · simp [isStreamCopy, split_part_cmd]
  · simp [specifiesEncoder, split_part_cmd]

/-! ## run_daily.py: timestamp reconstruction (claims C6, C7, C10) -/

/-- Python round(x, 2): the value rounded to two decimal places.
Mathlib round is round-half-up; Python rounds the underlying binary float
(half-to-even on exact ties), which differs only on exact half-cent ties —
none of the theorems below depends on tie behavior. -/
def round2 (q : ℚ) : ℚ := ((round (q * 100) : ℤ) : ℚ) / 100

/-- _SFX_RAW = 2.3, the raw transition-cue duration (run_daily.py line 450,
matching the 1.0 + 0.12 + 0.06 + 0.12 + 1.0 seconds built in audio.py). -/
def _SFX_RAW : ℚ := 2.3

/-- The group-timestamp loop of run_daily.main (lines 454-460): append the
running raw time divided by the tempo, rounded to two decimals; after every
group but the last add the group raw duration and the raw cue duration. -/
def groupStartsGo (tempo cue : ℚ) : ℚ → List ℚ → List ℚ
  | _, [] => []
  | t, [_rd] => [round2 (t / tempo)]
  | t, rd :: rest => round2 (t / tempo) :: groupStartsGo tempo cue (t + rd + cue) rest

/-- The list _group_ts of run_daily.main: tempo-adjusted group start
offsets. The tempo divisor is the imported PLAYBACK_ATEMPO (see claim C10:
audio.py defines no such constant), kept as a parameter here. -/
def groupStarts (raw_durs : List ℚ) (tempo cue : ℚ) : List ℚ :=
  groupStartsGo tempo cue 0 raw_durs

/-- The construction of _raw_seg_to_group (run_daily.py lines 430-447),
abstracted over which raw segments produced audio: a raw segment index maps
to the number of producing segments before it when it produced audio, and
to nothing otherwise. -/
def buildSegMapGo : List Bool → ℕ → List (Option ℕ)
  | [], _ => []
  | b :: rest, k =>
    (if b then some k else none) :: buildSegMapGo rest (if b then k + 1 else k)

/-- raw segment index → group index (none when the segment produced no
audio), as _raw_seg_to_group is filled while groups are appended. -/
def buildSegMap (produced : List Bool) : List (Option ℕ) :=
  buildSegMapGo produced 0

/-- The stop-word set of _title_text_frac (run_daily.py line 467). -/
def TITLE_STOP : List (List Char) :=
  ["the", "a", "an", "and", "or", "of", "in", "for", "to", "is", "are",
   "with", "from"].map String.toList

/-- ASCII letters, the character class of the regex [A-Za-z]{5,}. -/
def isAsciiAlpha (c : Char) : Bool :=
  ('A' ≤ c && c ≤ 'Z') || ('a' ≤ c && c ≤ 'z')

/-- Maximal runs of ASCII letters in a string (what re.findall with the
pattern [A-Za-z]{5,} matches, before the length filter): acc carries the
current run reversed. -/
def alphaRunsGo : List Char → List Char → List (List Char)
  | [], acc => if acc = [] then [] else [acc.reverse]
  | c :: rest, acc =>
    if isAsciiAlpha c then alphaRunsGo rest (c :: acc)
    else if acc = [] then alphaRunsGo rest [] else acc.reverse :: alphaRunsGo rest []

def alphaRuns (l : List Char) : List (List Char) :=
  alphaRunsGo l []

/-- needle.isPrefixOf-style check written out (is hay starting with needle). -/
def listStartsWith : List Char → List Char → Bool
  | [], _ => true
  | _ :: _, [] => false
  | a :: as, b :: bs => a == b && listStartsWith as bs

/-- Model of Python str.find: the lowest index at which needle occurs in
hay (None models -1, not found). -/
def strFind (hay needle : List Char) : Option ℕ :=
  (List.range (hay.length + 1)).find? (fun i => listStartsWith needle (hay.drop i))

/-- Model of _title_text_frac (run_daily.py lines 465-474): extract the
length-filtered, stop-word-filtered lowercased keywords of the title, find
the earliest position at which any of the first four occurs in the
lowercased segment text, and return it as a fraction of the text length.
str.lower is modelled characterwise (length-preserving). -/
def _title_text_frac (title text : List Char) : Option ℚ :=
  let words := (((alphaRuns title).filter (fun w => 5 ≤ w.length)).map
      (fun w => w.map Char.toLower)).filter (fun w => w ∉ TITLE_STOP)
  if words = [] ∨ text = [] then none
  else
    let tl := text.map Char.toLower
    let hits := ((words.take 4).map (fun w => strFind tl w)).reduceOption
    match hits.min? with
    | none => none
    | some m => some ((m : ℚ) / ((max text.length 1 : ℕ) : ℚ))

/-- One entry of _episode_items_list: a ContentItem with its originating
raw segment index (url, source and one_liner carried for the data model). -/
structure EpisodeItem where
  title : List Char
  url : List Char
  source : List Char
  segment : ℕ

/-- The per-item timestamp refinement of run_daily.main (lines 476-489):
resolve the raw segment index through the segment map (-1 when the segment
produced no audio), then add the intra-segment keyword delta, rounded to
two decimals, to the group start. -/
def itemTimestamp (segMap : List (Option ℕ)) (group_ts : List ℚ)
    (raw_durs : List ℚ) (raw_segments_all : List (List Char)) (tempo : ℚ)
    (it : EpisodeItem) : ℚ :=
  match segMap.getD it.segment none with
  | none => -1
  | some gi =>
    let base := group_ts.getD gi 0
    let segText := raw_segments_all.getD it.segment []
    let segDur := if gi < raw_durs.length then raw_durs.getD gi 0 / tempo else 0
    match _title_text_frac it.title segText with
    | none => base
    | some f => if 0 < segDur then round2 (base + f * segDur) else base

/-! ### Claim C10: the names audio.py defines versus what run_daily imports -/

/-- The module-level names defined (or imported) by
src/outputs/audio.py, in order of appearance. -/
def audio_module_names : List String :=
  ["subprocess", "Path", "List", "THRESHOLD_BYTES", "TARGET_BYTES",
   "_build_transition_sfx", "_ffprobe_duration_seconds",
   "_split_mp3_into_size_limited_parts", "_concat_sequence",
   "concat_mp3_ffmpeg", "concat_mp3_with_transitions"]

/-- The names run_daily.py line 21 imports from src.outputs.audio. -/
def run_daily_audio_import_names : List String :=
  ["concat_mp3_with_transitions", "_ffprobe_duration_seconds", "PLAYBACK_ATEMPO"]

/-- Claim C10 is a code bug: run_daily.py imports PLAYBACK_ATEMPO from
src.outputs.audio, but audio.py defines no name PLAYBACK_ATEMPO, so the
from-import raises ImportError before main runs and before any timestamp
is computed. -/
theorem playback_atempo_missing :
    "PLAYBACK_ATEMPO" ∈ run_daily_audio_import_names ∧
    "PLAYBACK_ATEMPO" ∉ audio_module_names ∧
    ¬ (∀ n ∈ run_daily_audio_import_names, n ∈ audio_module_names) := by
  refine ⟨by decide, by decide, ?_⟩
  intro hall
  exact absurd (hall "PLAYBACK_ATEMPO" (by decide)) (by decide)

/-! ### round2 lemmas -/

theorem round2_mono {a b : ℚ} (h : a ≤ b) : round2 a ≤ round2 b := by
  rw [round2, round2]
  have hr : round (a * 100) ≤ round (b * 100) := by
    rw [round_eq, round_eq]
    exact Int.floor_mono (by linarith)
  have hc : ((round (a * 100) : ℤ) : ℚ) ≤ ((round (b * 100) : ℤ) : ℚ) := by
    exact_mod_cast hr
  linarith

theorem abs_round2_sub (q : ℚ) : |round2 q - q| ≤ 1 / 200 := by
  rw [round2]
  have h := abs_sub_round (q * 100)
  rw [abs_sub_comm] at h
  have heq : ((round (q * 100) : ℤ) : ℚ) / 100 - q =
      (((round (q * 100) : ℤ) : ℚ) - q * 100) / 100 := by ring
  rw [heq, abs_div, abs_of_pos (by norm_num : (0 : ℚ) < 100)]
  linarith

theorem round2_le_add (q : ℚ) : round2 q ≤ q + 1 / 200 := by
  have := abs_round2_sub q
  rw [abs_le] at this
  linarith [this.2]

theorem le_round2_add (q : ℚ) : q - 1 / 200 ≤ round2 q := by
  have := abs_round2_sub q
  rw [abs_le] at this
  linarith [this.1]

theorem round2_round2 (q : ℚ) : round2 (round2 q) = round2 q := by
  rw [round2, round2]
  congr 2
  rw [div_mul_cancel₀ _ (by norm_num : (100 : ℚ) ≠ 0), round_intCast]

/-! ### Claim C6: the group-start computation in closed form -/

theorem groupStartsGo_closed (tempo cue : ℚ) :
    ∀ (rds : List ℚ) (t : ℚ),
      groupStartsGo tempo cue t rds =
        (List.range rds.length).map
          (fun i => round2 ((t + (((rds.take i).sum) + (i : ℚ) * cue)) / tempo)) := by
  intro rds
  induction rds with
  | nil => intro t; rfl
  | cons rd rest ih =>
    intro t
    cases rest with
    | nil =>
      show [round2 (t / tempo)] = _
      rw [show ([rd] : List ℚ).length = 1 from rfl, show List.range 1 = [0] from rfl]
      simp
    | cons r2 rs =>
      show round2 (t / tempo) :: groupStartsGo tempo cue (t + rd + cue) (r2 :: rs) = _
      rw [ih (t + rd + cue)]
      rw [show ((rd :: r2 :: rs).length) = (r2 :: rs).length + 1 from rfl,
        List.range_succ_eq_map, List.map_cons, List.map_map]
      congr 1
      · congr 1
        simp
      · refine List.map_congr_left ?_
        intro i _hi
        simp only [Function.comp]
        congr 1
        rw [List.take_succ_cons, List.sum_cons]
        push_cast
        ring

/-- Claim C6 (amended): the timestamp reconstructor walks groups in order
with a running raw-time counter, and group i's start equals the sum of the
raw durations of the groups before i plus one raw cue duration per
preceding group, divided by the tempo multiplier and ROUNDED TO TWO
DECIMALS (Python round(x, 2)); in particular for raw durations
[10, 15, 8], tempo 1.25 and raw cue 2 the starts are [0, 9.6, 23.2]
(exactly representable, so the rounding is invisible there). -/
theorem group_starts_spec :
    (∀ (rds : List ℚ) (tempo cue : ℚ),
        groupStarts rds tempo cue =
          (List.range rds.length).map
            (fun i => round2 ((((rds.take i).sum) + (i : ℚ) * cue) / tempo))) ∧
    groupStarts [10, 15, 8] (5 / 4) 2 = [0, 48 / 5, 116 / 5] := by
  have hgen : ∀ (rds : List ℚ) (tempo cue : ℚ),
      groupStarts rds tempo cue =
        (List.range rds.length).map
          (fun i => round2 ((((rds.take i).sum) + (i : ℚ) * cue) / tempo)) := by
    intro rds tempo cue
    rw [groupStarts, groupStartsGo_closed]
    refine List.map_congr_left ?_
    intro i _hi
    congr 2
    ring
  refine ⟨hgen, ?_⟩
  rw [hgen]
  rw [show ([10, 15, 8] : List ℚ).length = 3 from rfl,
    show List.range 3 = [0, 1, 2] from by decide]
  simp only [List.map_cons, List.map_nil, List.take_succ_cons, List.take_zero,
    List.sum_cons, List.sum_nil]
  norm_num [round2, round_eq]

/-- Counterexample to claim C6 as stated: with raw durations [1/3, 1],
tempo 1 and raw cue 1, the computed start of group 1 is 1.33 (the quotient
4/3 rounded to two decimals), not the exact quotient 4/3 the claim states. -/
theorem group_starts_rounding_counterexample :
    groupStarts [1 / 3, 1] 1 1 = [0, 133 / 100] ∧
    (133 / 100 : ℚ) ≠ (((([1 / 3, 1] : List ℚ).take 1).sum) + (1 : ℚ) * 1) / 1 := by
  constructor
  · show groupStartsGo 1 1 0 [1 / 3, 1] = _
    simp only [groupStartsGo]
    norm_num [round2, round_eq]
  · norm_num

/-! ### Claim C7: reconstructed timestamps are non-decreasing -/

theorem segMapGo_ge :
    ∀ (pr : List Bool) (k s g : ℕ), (buildSegMapGo pr k).getD s none = some g → k ≤ g := by
  intro pr
  induction pr with
  | nil => intro k s g h; simp [buildSegMapGo] at h
  | cons b rest ih =>
    intro k s g h
    match s with
    | 0 =>
      simp only [buildSegMapGo, List.getD_cons_zero] at h
      by_cases hb : b
      · rw [if_pos hb] at h
        have hkg : k = g := by simpa using h
        omega
      · rw [if_neg hb] at h
        exact absurd h (by simp)
    | s + 1 =>
      simp only [buildSegMapGo, List.getD_cons_succ] at h
      have := ih (if b then k + 1 else k) s g h
      by_cases hb : b
      · rw [if_pos hb] at this; omega
      · rw [if_neg hb] at this; omega

theorem segMapGo_lt_count :
    ∀ (pr : List Bool) (k s g : ℕ), (buildSegMapGo pr k).getD s none = some g →
      g < k + pr.count true := by
  intro pr
  induction pr with
  | nil => intro k s g h; simp [buildSegMapGo] at h
  | cons b rest ih =>
    intro k s g h
    match s with
    | 0 =>
      simp only [buildSegMapGo, List.getD_cons_zero] at h
      by_cases hb : b
      · rw [if_pos hb] at h
        have hkg : k = g := by simpa using h
        subst hb
        simp only [List.count_cons_self]
        omega
      · rw [if_neg hb] at h
        exact absurd h (by simp)
    | s + 1 =>
      simp only [buildSegMapGo, List.getD_cons_succ] at h
      have hrec := ih (if b then k + 1 else k) s g h
      by_cases hb : b
      · rw [if_pos hb] at hrec
        subst hb
        simp only [List.count_cons_self]
        omega
      · rw [if_neg hb] at hrec
        have hbf : b = false := by simpa using hb
        subst hbf
        rw [List.count_cons_of_ne (by simp)]
        omega

theorem segMapGo_mono :
    ∀ (pr : List Bool) (k s1 s2 g1 g2 : ℕ), s1 < s2 →
      (buildSegMapGo pr k).getD s1 none = some g1 →
      (buildSegMapGo pr k).getD s2 none = some g2 → g1 < g2 := by
  intro pr
  induction pr with
  | nil => intro k s1 s2 g1 g2 hs h1 h2; simp [buildSegMapGo] at h1
  | cons b rest ih =>
    intro k s1 s2 g1 g2 hs h1 h2
    match s1, s2 with
    | 0, s2 + 1 =>
      simp only [buildSegMapGo, List.getD_cons_zero, List.getD_cons_succ] at h1 h2
      by_cases hb : b
      · rw [if_pos hb] at h1 h2
        have hkg : k = g1 := by simpa using h1
        have := segMapGo_ge rest (k + 1) s2 g2 h2
        omega
      · rw [if_neg hb] at h1
        exact absurd h1 (by simp)
    | s1 + 1, s2 + 1 =>
      simp only [buildSegMapGo, List.getD_cons_succ] at h1 h2
      exact ih (if b then k + 1 else k) s1 s2 g1 g2 (by omega) h1 h2

theorem sum_take_mono (l : List ℚ) (h0 : ∀ x ∈ l, 0 ≤ x) :
    ∀ i j : ℕ, i ≤ j → (l.take i).sum ≤ (l.take j).sum := by
  intro i j hij
  induction j with
  | zero =>
    have : i = 0 := by omega
    subst this
    exact le_rfl
  | succ j ihj =>
    rcases Nat.eq_or_lt_of_le hij with rfl | hlt
    · exact le_rfl
    · have hij2 : i ≤ j := by omega
      rcases Nat.lt_or_ge j l.length with hj | hj
      · calc (l.take i).sum ≤ (l.take j).sum := ihj hij2
          _ ≤ (l.take (j + 1)).sum := by
              rw [List.sum_take_succ l j hj]
              have := h0 l[j] (List.getElem_mem hj)
              linarith
      · have he : l.take (j + 1) = l.take j := by
          rw [List.take_of_length_le hj, List.take_of_length_le (by omega)]
        rw [he]
        exact ihj hij2

theorem listStartsWith_length :
    ∀ (n h : List Char), listStartsWith n h = true → n.length ≤ h.length := by
  intro n
  induction n with
  | nil => intro h _; simp
  | cons a as ih =>
    intro h hsw
    match h with
    | [] => simp [listStartsWith] at hsw
    | b :: bs =>
      simp only [listStartsWith, Bool.and_eq_true] at hsw
      have := ih bs hsw.2
      simp only [List.length_cons]
      omega

theorem strFind_bound {hay needle : List Char} {p : ℕ}
    (h : strFind hay needle = some p) : p + needle.length ≤ hay.length := by
  rw [strFind] at h
  have hmem := List.mem_of_find?_eq_some h
  have hpred := List.find?_some h
  have hp : p ≤ hay.length := by
    rw [List.mem_range] at hmem
    omega
  have hlen := listStartsWith_length needle (hay.drop p) hpred
  rw [List.length_drop] at hlen
  omega

theorem title_text_frac_bounds {title text : List Char} {f : ℚ}
    (h : _title_text_frac title text = some f) : 0 ≤ f ∧ f < 1 := by
  rw [_title_text_frac] at h
  by_cases hw : ((((alphaRuns title).filter (fun w => 5 ≤ w.length)).map
      (fun w => w.map Char.toLower)).filter (fun w => w ∉ TITLE_STOP)) = [] ∨ text = []
  · rw [if_pos hw] at h
    exact absurd h (by simp)
  · rw [if_neg hw] at h
    simp only [] at h
    match hmin : (((((alphaRuns title).filter (fun w => 5 ≤ w.length)).map
        (fun w => w.map Char.toLower)).filter (fun w => w ∉ TITLE_STOP)).take 4
          |>.map (fun w => strFind (text.map Char.toLower) w)).reduceOption.min? with
    | none =>
      rw [hmin] at h
      exact absurd h (by simp)
    | some m =>
      rw [hmin] at h
      have hf : f = (m : ℚ) / ((max text.length 1 : ℕ) : ℚ) := by
        have := h.symm
        simpa using this
      have hmem := List.min?_mem (fun a b : ℕ => min_choice a b) hmin
      rw [List.reduceOption_mem_iff] at hmem
      obtain ⟨w, hwmem, hwfind⟩ := List.mem_map.mp hmem
      have hwlen : 5 ≤ w.length := by
        have hw2 := List.mem_of_mem_take hwmem
        obtain ⟨hw3, _⟩ := List.mem_filter.mp hw2
        obtain ⟨w0, hw0mem, rfl⟩ := List.mem_map.mp hw3
        obtain ⟨_, hw0len⟩ := List.mem_filter.mp hw0mem
        simpa using hw0len
      have hbound : m + w.length ≤ text.length := by
        have := strFind_bound hwfind
        simpa using this
      have htlen : 5 ≤ text.length := by omega
      have hmax : (max text.length 1 : ℕ) = text.length := by omega
      rw [hf, hmax]
      constructor
      · positivity
      · rw [div_lt_one (by exact_mod_cast Nat.lt_of_lt_of_le (by omega) le_rfl)]
        exact_mod_cast (by omega : m < text.length)

theorem groupStarts_getD (rds : List ℚ) (tempo cue : ℚ) (g : ℕ)
    (hg : g < rds.length) :
    (groupStarts rds tempo cue).getD g 0 =
      round2 ((((rds.take g).sum) + (g : ℚ) * cue) / tempo) := by
  rw [groupStarts, groupStartsGo_closed]
  have hlen : g < ((List.range rds.length).map
      (fun i => round2 ((0 + (((rds.take i).sum) + (i : ℚ) * cue)) / tempo))).length := by
    simpa using hg
  rw [List.getD_eq_getElem _ _ hlen]
  simp only [List.getElem_map, List.getElem_range]
  congr 2
  ring

theorem itemTimestamp_eq_of_some (segMap : List (Option ℕ)) (gts raw_durs : List ℚ)
    (segs : List (List Char)) (tempo : ℚ) (it : EpisodeItem) (g : ℕ)
    (hg : segMap.getD it.segment none = some g) :
    itemTimestamp segMap gts raw_durs segs tempo it =
      match _title_text_frac it.title (segs.getD it.segment []) with
      | none => gts.getD g 0
      | some f =>
          if 0 < (if g < raw_durs.length then raw_durs.getD g 0 / tempo else 0) then
            round2 (gts.getD g 0 +
              f * (if g < raw_durs.length then raw_durs.getD g 0 / tempo else 0))
          else gts.getD g 0 := by
  rw [itemTimestamp, hg]

theorem round2_add_bounds {b d f : ℚ} (hb : round2 b = b) (hd : 0 ≤ d)
    (hf0 : 0 ≤ f) (hf1 : f < 1) :
    b ≤ round2 (b + f * d) ∧ round2 (b + f * d) ≤ round2 (b + d) := by
  constructor
  · calc b = round2 b := hb.symm
      _ ≤ round2 (b + f * d) := round2_mono (by nlinarith)
  · exact round2_mono (by nlinarith)

theorem itemTimestamp_bounds (segMap : List (Option ℕ)) (gts raw_durs : List ℚ)
    (segs : List (List Char)) (tempo : ℚ) (it : EpisodeItem) (g : ℕ)
    (hg : segMap.getD it.segment none = some g)
    (hround : round2 (gts.getD g 0) = gts.getD g 0)
    (hd : 0 ≤ (if g < raw_durs.length then raw_durs.getD g 0 / tempo else 0)) :
    gts.getD g 0 ≤ itemTimestamp segMap gts raw_durs segs tempo it ∧
    itemTimestamp segMap gts raw_durs segs tempo it ≤
      round2 (gts.getD g 0 +
        (if g < raw_durs.length then raw_durs.getD g 0 / tempo else 0)) := by
  rw [itemTimestamp_eq_of_some segMap gts raw_durs segs tempo it g hg]
  have hbase : gts.getD g 0 ≤ round2 (gts.getD g 0 +
      (if g < raw_durs.length then raw_durs.getD g 0 / tempo else 0)) := by
    calc gts.getD g 0 = round2 (gts.getD g 0) := hround.symm
      _ ≤ _ := round2_mono (by linarith)
  match hf : _title_text_frac it.title (segs.getD it.segment []) with
  | none =>
    dsimp only []
    exact ⟨le_rfl, hbase⟩
  | some f =>
    dsimp only []
    obtain ⟨hf0, hf1⟩ := title_text_frac_bounds hf
    by_cases hpos : 0 < (if g < raw_durs.length then raw_durs.getD g 0 / tempo else 0)
    · rw [if_pos hpos]
      exact round2_add_bounds hround hd hf0 hf1
    · rw [if_neg hpos]
      exact ⟨le_rfl, hbase⟩

theorem itemTimestamp_pair_mono (produced : List Bool) (raw_durs : List ℚ)
    (segs : List (List Char)) (tempo : ℚ) (it1 it2 : EpisodeItem)
    (hdur : ∀ x ∈ raw_durs, 0 ≤ x) (htempo : 0 < tempo) (htempo2 : tempo ≤ 100)
    (hcount : produced.count true ≤ raw_durs.length)
    (hseg : it1.segment < it2.segment)
    (h1 : (buildSegMap produced).getD it1.segment none ≠ none)
    (h2 : (buildSegMap produced).getD it2.segment none ≠ none) :
    itemTimestamp (buildSegMap produced) (groupStarts raw_durs tempo _SFX_RAW)
        raw_durs segs tempo it1 ≤
      itemTimestamp (buildSegMap produced) (groupStarts raw_durs tempo _SFX_RAW)
        raw_durs segs tempo it2 := by
  obtain ⟨g1, hg1⟩ := Option.ne_none_iff_exists'.mp h1
  obtain ⟨g2, hg2⟩ := Option.ne_none_iff_exists'.mp h2
  have hg12 : g1 < g2 := segMapGo_mono produced 0 _ _ _ _ hseg hg1 hg2
  have hg2n : g2 < raw_durs.length := by
    have := segMapGo_lt_count produced 0 _ _ hg2
    omega
  have hg1n : g1 < raw_durs.length := by omega
  have hb1 := groupStarts_getD raw_durs tempo _SFX_RAW g1 hg1n
  have hb2 := groupStarts_getD raw_durs tempo _SFX_RAW g2 hg2n
  have hr1 : round2 ((groupStarts raw_durs tempo _SFX_RAW).getD g1 0) =
      (groupStarts raw_durs tempo _SFX_RAW).getD g1 0 := by
    rw [hb1, round2_round2]
  have hr2 : round2 ((groupStarts raw_durs tempo _SFX_RAW).getD g2 0) =
      (groupStarts raw_durs tempo _SFX_RAW).getD g2 0 := by
    rw [hb2, round2_round2]
  have hrd1 : 0 ≤ raw_durs.getD g1 0 := by
    rw [List.getD_eq_getElem raw_durs 0 hg1n]
    exact hdur _ (List.getElem_mem hg1n)
  have hrd2 : 0 ≤ raw_durs.getD g2 0 := by
    rw [List.getD_eq_getElem raw_durs 0 hg2n]
    exact hdur _ (List.getElem_mem hg2n)
  have hd1 : (if g1 < raw_durs.length then raw_durs.getD g1 0 / tempo else 0) =
      raw_durs.getD g1 0 / tempo := if_pos hg1n
  have hd2 : (if g2 < raw_durs.length then raw_durs.getD g2 0 / tempo else 0) =
      raw_durs.getD g2 0 / tempo := if_pos hg2n
  have hd1nn : 0 ≤ raw_durs.getD g1 0 / tempo := by positivity
  have hd2nn : 0 ≤ raw_durs.getD g2 0 / tempo := by positivity
  have hup := (itemTimestamp_bounds (buildSegMap produced)
    (groupStarts raw_durs tempo _SFX_RAW) raw_durs segs tempo it1 g1 hg1 hr1
    (by rw [hd1]; exact hd1nn)).2
  have hlo := (itemTimestamp_bounds (buildSegMap produced)
    (groupStarts raw_durs tempo _SFX_RAW) raw_durs segs tempo it2 g2 hg2 hr2
    (by rw [hd2]; exact hd2nn)).1
  rw [hd1] at hup
  -- the key inequality: round2 (b1 + d1) ≤ b2
  have hsum : (raw_durs.take g1).sum + raw_durs.getD g1 0 ≤ (raw_durs.take g2).sum := by
    have hstep : (raw_durs.take (g1 + 1)).sum =
        (raw_durs.take g1).sum + raw_durs[g1] := List.sum_take_succ raw_durs g1 hg1n
    have hmono := sum_take_mono raw_durs hdur (g1 + 1) g2 (by omega)
    rw [List.getD_eq_getElem raw_durs 0 hg1n]
    linarith
  have hcue_nonneg : (0 : ℚ) ≤ _SFX_RAW := by norm_num [_SFX_RAW]
  have hcue_mul : ((g1 : ℚ) + 1) * _SFX_RAW ≤ (g2 : ℚ) * _SFX_RAW := by
    apply mul_le_mul_of_nonneg_right _ hcue_nonneg
    have : (g1 : ℚ) + 1 ≤ (g2 : ℚ) := by exact_mod_cast (by omega : g1 + 1 ≤ g2)
    exact this
  have hT : ((raw_durs.take g1).sum + (g1 : ℚ) * _SFX_RAW) + raw_durs.getD g1 0 + _SFX_RAW ≤
      (raw_durs.take g2).sum + (g2 : ℚ) * _SFX_RAW := by linarith
  have hdivT : (((raw_durs.take g1).sum + (g1 : ℚ) * _SFX_RAW) + raw_durs.getD g1 0 +
      _SFX_RAW) / tempo ≤
      ((raw_durs.take g2).sum + (g2 : ℚ) * _SFX_RAW) / tempo :=
    (div_le_div_iff_of_pos_right htempo).mpr hT
  rw [add_div, add_div] at hdivT
  have hcue_div : (3 / 200 : ℚ) ≤ _SFX_RAW / tempo := by
    have h100 : _SFX_RAW / 100 ≤ _SFX_RAW / tempo :=
      div_le_div_of_nonneg_left hcue_nonneg htempo htempo2
    have : (3 / 200 : ℚ) ≤ _SFX_RAW / 100 := by norm_num [_SFX_RAW]
    linarith
  have hkey : round2 ((groupStarts raw_durs tempo _SFX_RAW).getD g1 0 +
      raw_durs.getD g1 0 / tempo) ≤
      (groupStarts raw_durs tempo _SFX_RAW).getD g2 0 := by
    have hu := round2_le_add ((groupStarts raw_durs tempo _SFX_RAW).getD g1 0 +
      raw_durs.getD g1 0 / tempo)
    have hb1u : (groupStarts raw_durs tempo _SFX_RAW).getD g1 0 ≤
        (((raw_durs.take g1).sum + (g1 : ℚ) * _SFX_RAW)) / tempo + 1 / 200 := by
      rw [hb1]
      exact round2_le_add _
    have hb2l : (((raw_durs.take g2).sum + (g2 : ℚ) * _SFX_RAW)) / tempo - 1 / 200 ≤
        (groupStarts raw_durs tempo _SFX_RAW).getD g2 0 := by
      rw [hb2]
      exact le_round2_add _
    linarith
  linarith

/-- Claim C7 (amended): for any list of content items whose segment
indices are STRICTLY increasing and whose segments all produced audio, the
reconstructed per-item timestamps (group start plus intra-segment keyword
delta) are non-decreasing. With merely non-decreasing segment indices the
claim fails: two items of one segment get their order from their title
keyword positions alone (see the counterexample). Stated for the
reconstructor of run_daily.main with its cue constant _SFX_RAW,
nonnegative measured durations, a positive tempo at most 100, and one
measured duration per producing segment. -/
theorem item_timestamps_monotone (produced : List Bool) (raw_durs : List ℚ)
    (segs : List (List Char)) (tempo : ℚ) (items : List EpisodeItem)
    (hdur : ∀ x ∈ raw_durs, 0 ≤ x) (htempo : 0 < tempo) (htempo2 : tempo ≤ 100)
    (hcount : produced.count true ≤ raw_durs.length)
    (hmono : items.Pairwise (fun a b => a.segment < b.segment))
    (hmapped : ∀ it ∈ items, (buildSegMap produced).getD it.segment none ≠ none) :
    (items.map (itemTimestamp (buildSegMap produced)
        (groupStarts raw_durs tempo _SFX_RAW) raw_durs segs tempo)).Pairwise
      (fun x y => x ≤ y) := by
  rw [List.pairwise_map]
  refine List.Pairwise.imp_of_mem ?_ hmono
  intro a b ha hb hlt
  exact itemTimestamp_pair_mono produced raw_durs segs tempo a b hdur htempo
    htempo2 hcount hlt (hmapped a ha) (hmapped b hb)

/-- Witness for C7 at a concrete reconstruction: two items in segments 0
and 1, both segments produced audio with durations 10 and 15, tempo 2. -/
theorem item_timestamps_monotone_witness :
    (∀ x ∈ ([10, 15] : List ℚ), 0 ≤ x) ∧
    (0 : ℚ) < 2 ∧ (2 : ℚ) ≤ 100 ∧
    ([true, true] : List Bool).count true ≤ ([10, 15] : List ℚ).length ∧
    ([⟨['p'], [], [], 0⟩, ⟨['q'], [], [], 1⟩] : List EpisodeItem).Pairwise
      (fun a b => a.segment < b.segment) ∧
    (∀ it ∈ ([⟨['p'], [], [], 0⟩, ⟨['q'], [], [], 1⟩] : List EpisodeItem),
      (buildSegMap [true, true]).getD it.segment none ≠ none) ∧
    (([⟨['p'], [], [], 0⟩, ⟨['q'], [], [], 1⟩] : List EpisodeItem).map
        (itemTimestamp (buildSegMap [true, true])
          (groupStarts [10, 15] 2 _SFX_RAW) [10, 15] [['s'], ['t']] 2)).Pairwise
      (fun x y => x ≤ y) := by
  have h1 : ∀ x ∈ ([10, 15] : List ℚ), 0 ≤ x := by decide
  have h2 : (0 : ℚ) < 2 := by decide
  have h3 : (2 : ℚ) ≤ 100 := by decide
  have h4 : ([true, true] : List Bool).count true ≤ ([10, 15] : List ℚ).length := by
    decide
  have h5 : ([⟨['p'], [], [], 0⟩, ⟨['q'], [], [], 1⟩] : List EpisodeItem).Pairwise
      (fun a b => a.segment < b.segment) := by
    refine List.Pairwise.cons ?_ ?_
    · intro b hb
      rcases List.mem_singleton.mp hb with rfl
      decide
    · exact List.pairwise_singleton _ _
  have h6 : ∀ it ∈ ([⟨['p'], [], [], 0⟩, ⟨['q'], [], [], 1⟩] : List EpisodeItem),
      (buildSegMap [true, true]).getD it.segment none ≠ none := by
    intro it hit
    rcases List.mem_cons.mp hit with rfl | hit2
    · decide
    · rcases List.mem_singleton.mp hit2 with rfl
      decide
  exact ⟨h1, h2, h3, h4, h5, h6,
    item_timestamps_monotone [true, true] [10, 15] [['s'], ['t']] 2
      [⟨['p'], [], [], 0⟩, ⟨['q'], [], [], 1⟩] h1 h2 h3 h4 h5 h6⟩

theorem groupStarts_ten_getD : (groupStarts [10] 1 _SFX_RAW).getD 0 0 = 0 := by
  show (groupStartsGo 1 _SFX_RAW 0 [10]).getD 0 0 = 0
  simp only [groupStartsGo]
  show round2 (0 / 1) = 0
  norm_num [round2, round_eq]

theorem itemTimestamp_apple_eval :
    itemTimestamp (buildSegMap [true]) (groupStarts [10] 1 _SFX_RAW) [10]
      [String.toList "zebra apple"] 1 ⟨String.toList "apple", [], [], 0⟩ = 109 / 20 := by
  have hg : (buildSegMap [true]).getD
      (⟨String.toList "apple", [], [], 0⟩ : EpisodeItem).segment none = some 0 := rfl
  rw [itemTimestamp_eq_of_some _ _ _ _ _ _ 0 hg]
  have hfrac : _title_text_frac (⟨String.toList "apple", [], [], 0⟩ : EpisodeItem).title
      (([String.toList "zebra apple"] : List (List Char)).getD
        (⟨String.toList "apple", [], [], 0⟩ : EpisodeItem).segment []) =
      some (((6 : ℕ) : ℚ) / ((11 : ℕ) : ℚ)) := rfl
  rw [hfrac]
  dsimp only []
  rw [if_pos (by decide : (0 : ℕ) < ([10] : List ℚ).length)]
  rw [show (([10] : List ℚ).getD 0 0) = 10 from rfl]
  rw [if_pos (by norm_num : (0 : ℚ) < 10 / 1)]
  rw [groupStarts_ten_getD]
  norm_num [round2, round_eq]

theorem itemTimestamp_zebra_eval :
    itemTimestamp (buildSegMap [true]) (groupStarts [10] 1 _SFX_RAW) [10]
      [String.toList "zebra apple"] 1 ⟨String.toList "zebra", [], [], 0⟩ = 0 := by
  have hg : (buildSegMap [true]).getD
      (⟨String.toList "zebra", [], [], 0⟩ : EpisodeItem).segment none = some 0 := rfl
  rw [itemTimestamp_eq_of_some _ _ _ _ _ _ 0 hg]
  have hfrac : _title_text_frac (⟨String.toList "zebra", [], [], 0⟩ : EpisodeItem).title
      (([String.toList "zebra apple"] : List (List Char)).getD
        (⟨String.toList "zebra", [], [], 0⟩ : EpisodeItem).segment []) =
      some (((0 : ℕ) : ℚ) / ((11 : ℕ) : ℚ)) := rfl
  rw [hfrac]
  dsimp only []
  rw [if_pos (by decide : (0 : ℕ) < ([10] : List ℚ).length)]
  rw [show (([10] : List ℚ).getD 0 0) = 10 from rfl]
  rw [if_pos (by norm_num : (0 : ℚ) < 10 / 1)]
  rw [groupStarts_ten_getD]
  norm_num [round2, round_eq]

/-- Counterexample to claim C7 as stated: with 'monotonically increasing'
read as non-strict (equal segment indices allowed, the normal case of a
multi-item roundup segment), the claim is false. Two items in segment 0,
whose segment text is zebra apple (duration 10, tempo 1, all other
hypotheses of the reconstruction satisfied): the item titled apple gets
keyword offset 6/11 of the duration (timestamp 5.45), the item titled
zebra gets offset 0 (timestamp 0), so the reconstructed timestamps
[5.45, 0] DECREASE although the segment indices [0, 0] are non-strictly
monotone and both items resolve to a produced group. -/
theorem item_timestamps_equal_segment_counterexample :
    (([⟨String.toList "apple", [], [], 0⟩,
       ⟨String.toList "zebra", [], [], 0⟩] : List EpisodeItem).Pairwise
        (fun a b => a.segment ≤ b.segment)) ∧
    (∀ x ∈ ([10] : List ℚ), 0 ≤ x) ∧
    (0 : ℚ) < 1 ∧ (1 : ℚ) ≤ 100 ∧
    ([true] : List Bool).count true ≤ ([10] : List ℚ).length ∧
    (∀ it ∈ ([⟨String.toList "apple", [], [], 0⟩,
        ⟨String.toList "zebra", [], [], 0⟩] : List EpisodeItem),
      (buildSegMap [true]).getD it.segment none ≠ none) ∧
    (([⟨String.toList "apple", [], [], 0⟩,
       ⟨String.toList "zebra", [], [], 0⟩] : List EpisodeItem).map
        (itemTimestamp (buildSegMap [true]) (groupStarts [10] 1 _SFX_RAW)
          [10] [String.toList "zebra apple"] 1)) = [109 / 20, 0] ∧
    ¬ (([109 / 20, 0] : List ℚ).Pairwise (fun x y => x ≤ y)) := by
  refine ⟨?_, ?_, ?_, ?_, ?_, ?_, ?_, ?_⟩
  · refine List.Pairwise.cons ?_ (List.pairwise_singleton _ _)
    intro b hb
    rcases List.mem_singleton.mp hb with rfl
    decide
  · decide
  · decide
  · decide
  · decide
  · intro it hit
    rcases List.mem_cons.mp hit with rfl | hit2
    · decide
    · rcases List.mem_singleton.mp hit2 with rfl
      decide
  · rw [List.map_cons, List.map_cons, List.map_nil,
      itemTimestamp_apple_eval, itemTimestamp_zebra_eval]
  · intro h
    have := (List.pairwise_cons.mp h).1 0 (by simp)
    norm_num at this

end Openclaw
